import Mathlib

/-!
Verification of the `indexed-table` (Microtable) in-memory columnar store.

The definitions below are a shallow embedding of `src/Microtable.ts`
(the second, current variant of the class).  JavaScript objects used as
string-keyed dictionaries are modelled as association lists that keep
insertion order and deduplicate keys; `Map` objects are modelled the same
way.  A JavaScript value that may be `undefined` is modelled as
`Option Value`; `JSON.stringify` of a tuple of such values is injective on
that domain, so index bucket keys are modelled as the value lists
themselves.  A thrown `TypeError` (e.g. reading a property of `undefined`)
is `MErr.typeErr`; a thrown `new Error(msg)` is `MErr.err msg`.
-/

namespace Microtable

/-- A primitive table value (string or number). -/
inductive Value where
  | str (s : String)
  | num (n : Int)
deriving DecidableEq, Repr

/-- A JavaScript runtime failure: `typeErr` for a TypeError (such as
reading a property of `undefined`), `err msg` for a thrown `Error`. -/
inductive MErr where
  | typeErr
  | err (msg : String)
deriving DecidableEq, Repr

/-- A JavaScript value that may be `undefined`. -/
abbrev OV := Option Value

/-- One column of the columnar store. -/
abbrev Col := List OV

/-- A JavaScript object with string keys: an insertion-ordered association
list with no duplicate keys (all constructors below preserve this). -/
abbrev Obj (β : Type) := List (String × β)

/-- A logical row, i.e. a JS record object. -/
abbrev ORow := Obj OV

/-- Property read on a JS object; a missing key reads as `undefined`. -/
def rowGet (r : ORow) (k : String) : OV :=
  match r.find? (fun p => decide (p.1 = k)) with
  | some p => p.2
  | none => none

/-- Generic association lookup (JS `obj[k]` / `Map.get`). -/
def mapGet {β : Type} [DecidableEq κ] (m : List (κ × β)) (k : κ) : Option β :=
  match m with
  | [] => none
  | p :: ps => if p.1 = k then some p.2 else mapGet ps k

/-- JS assignment `obj[k] = v` / `Map.set`: replaces in place if the key is
present, otherwise appends at the end. -/
def mapSet {β : Type} [DecidableEq κ] (m : List (κ × β)) (k : κ) (v : β) :
    List (κ × β) :=
  match m with
  | [] => [(k, v)]
  | p :: ps => if p.1 = k then (k, v) :: ps else p :: mapSet ps k v

/-- JS `delete obj[k]` / `Map.delete`. -/
def mapErase {β : Type} [DecidableEq κ] (m : List (κ × β)) (k : κ) :
    List (κ × β) :=
  match m with
  | [] => []
  | p :: ps => if p.1 = k then mapErase ps k else p :: mapErase ps k

/-- Array read `a[i]`: an out-of-range read yields `undefined`. -/
def jsGet (c : Col) (i : Nat) : OV :=
  match c.get? i with
  | some v => v
  | none => none

/-- An index: JSON-encoded value tuple (modelled structurally) to the
ordered list of row offsets. -/
abbrev Index := List (List OV × List Nat)

/-- The Microtable instance state (fields of the TS class). -/
structure Table where
  fields : List String
  data : Obj Col
  indexes : Obj Index
  uniquenessIndexNames : List String
  length : Nat
deriving DecidableEq, Repr

/-- `JSON.stringify(columns.map(...))` bucket insertion used by
`createIndex` and `insert`: push onto an existing bucket, else create it. -/
def bucketPush (idx : Index) (tup : List OV) (i : Nat) : Index :=
  match mapGet idx tup with
  | some b => mapSet idx tup (b ++ [i])
  | none => mapSet idx tup [i]

/-- `Array.prototype.splice(i, 1)`: removes the element at `i`; removes
nothing when `i` is out of range. -/
def spliceAt (c : Col) (i : Nat) : Col := c.eraseIdx i

/-- `fields.join(",")`. -/
def joinComma : List String → String
  | [] => ""
  | [x] => x
  | x :: y :: xs => x ++ "," ++ joinComma (y :: xs)

/-- Helper for `splitComma`, working on the character list. -/
def splitCommaChars : List Char → List (List Char)
  | [] => [[]]
  | c :: cs =>
    if c = ',' then [] :: splitCommaChars cs
    else
      match splitCommaChars cs with
      | g :: gs => (c :: g) :: gs
      | [] => [[c]]

/-- `indexName.split(",")` (note `"".split(",")` is `[""]`). -/
def splitComma (s : String) : List String :=
  (splitCommaChars s.data).map (fun cs => String.mk cs)

/-- `Array.prototype.indexOf`: index of the first occurrence, `-1` if
absent. -/
def jsIndexOf (l : List String) (x : String) : Int :=
  match l.findIdx? (fun y => decide (y = x)) with
  | some i => (i : Int)
  | none => -1

/-- Stable insertion of `x` after every element whose sort key is `≤` its
own (one step of a stable sort). -/
def insertByKey (key : String → Int) (x : String) : List String → List String
  | [] => [x]
  | y :: ys => if key y ≤ key x then y :: insertByKey key x ys else x :: y :: ys

/-- `Microtable.sortFields`: stable sort of `fs` by position in the schema
`schema` (`indexOf`, `-1` when absent). -/
def sortFields (schema fs : List String) : List String :=
  fs.foldl (fun acc x => insertByKey (jsIndexOf schema) x acc) []

/-- `Microtable.fieldKey`: canonical comma-joined storage key. -/
def fieldKey (t : Table) (fs : List String) : String :=
  joinComma (sortFields t.fields fs)

/-- Constructor core for row-major input once the key list is known:
`keys.reduce` initialises one empty column per key, then each row pushes
its value for each key. -/
def createAux (keys : List String) (rows : List ORow) : Table :=
  let data0 : Obj Col := keys.foldl (fun d k => mapSet d k []) []
  let data := rows.foldl
    (fun d r => keys.foldl
      (fun d k => mapSet d k (((mapGet d k).getD []) ++ [rowGet r k])) d)
    data0
  { fields := keys, data := data, indexes := [],
    uniquenessIndexNames := [], length := rows.length }

/-- `Microtable.create` / the constructor, row-major branch: with no
explicit field list the keys are read from the first row, a `TypeError`
when there is none. -/
def create (rows : List ORow) (fields : List String) : Except MErr Table :=
  match fields with
  | f :: fs => .ok (createAux (f :: fs) rows)
  | [] =>
    match rows with
    | [] => .error .typeErr
    | r :: _ => .ok (createAux (r.map (fun p => p.1)) rows)

/-- The constructor, column-major branch (used by `filterByRowIndex`):
`length` is read from the first column, a `TypeError` when the data object
has no keys. -/
def createCols (data : Obj Col) : Except MErr Table :=
  match data with
  | [] => .error .typeErr
  | (_, c0) :: _ =>
    .ok { fields := data.map (fun p => p.1), data := data, indexes := [],
          uniquenessIndexNames := [], length := c0.length }

/-- `Microtable.record(i)`: assemble the row at offset `i`. -/
def Table.record (t : Table) (i : Nat) : ORow :=
  t.data.map (fun p => (p.1, jsGet p.2 i))

/-- `Microtable.records()`. -/
def Table.recs (t : Table) : List ORow :=
  (List.range t.length).map (fun i => t.record i)

/-- One record of `Microtable.select`, assembled field by field in the
given order; dereferencing a field absent from `data` is a `TypeError`.
JS object assembly deduplicates repeated keys in place. -/
def selRecordAux (t : Table) (i : Nat) (acc : ORow) :
    List String → Except MErr ORow
  | [] => .ok acc
  | f :: fs =>
    match mapGet t.data f with
    | none => .error .typeErr
    | some c => selRecordAux t i (mapSet acc f (jsGet c i)) fs

/-- The record list built by `Microtable.select`'s loop over row offsets. -/
def selRecords (t : Table) (fields : List String) :
    List Nat → Except MErr (List ORow)
  | [] => .ok []
  | i :: is =>
    match selRecordAux t i [] fields with
    | .error e => .error e
    | .ok r =>
      match selRecords t fields is with
      | .error e => .error e
      | .ok rs => .ok (r :: rs)

/-- `Microtable.select`: row count is read off the first column (a
`TypeError` when `data` has no keys); the result table is built from the
projected records with no explicit field list. -/
def select (t : Table) (fields : List String) : Except MErr Table :=
  match t.data with
  | [] => .error .typeErr
  | (_, c0) :: _ =>
    match selRecords t fields (List.range c0.length) with
    | .error e => .error e
    | .ok rs => create rs []

/-- The message of the `Error` thrown by `Microtable.single`. -/
def shapeMsg : String := "Number of columns and rows should be 1"

/-- `Microtable.single`: the sole value of a 1×1 table. -/
def single (t : Table) : Except MErr OV :=
  if t.fields.length = 1 ∧ t.length = 1 then
    match t.fields with
    | f :: _ =>
      match mapGet t.data f with
      | none => .error .typeErr
      | some c => .ok (jsGet c 0)
    | [] => .error .typeErr
  else .error (.err shapeMsg)

/-- The composite value tuple of row `i` for the given field list, as
serialized by `JSON.stringify` in `createIndex`; dereferencing an unknown
field is a `TypeError`. -/
def tupleAux (t : Table) (i : Nat) : List String → Except MErr (List OV)
  | [] => .ok []
  | f :: fs =>
    match mapGet t.data f with
    | none => .error .typeErr
    | some c =>
      match tupleAux t i fs with
      | .error e => .error e
      | .ok vs => .ok (jsGet c i :: vs)

/-- The index-building loop of `Microtable.createIndex`. -/
def buildIndex (t : Table) (fields : List String) (idx : Index) :
    List Nat → Except MErr Index
  | [] => .ok idx
  | i :: is =>
    match tupleAux t i fields with
    | .error e => .error e
    | .ok tup => buildIndex t fields (bucketPush idx tup i) is

/-- `Microtable.createIndex`: one pass over the store, then the index is
stored (replacing any previous one) under the canonical key. -/
def createIndex (t : Table) (fields : List String) : Except MErr Table :=
  let key := fieldKey t fields
  match t.data with
  | [] => .error .typeErr
  | (_, c0) :: _ =>
    match buildIndex t fields [] (List.range c0.length) with
    | .error e => .error e
    | .ok idx => .ok { t with indexes := mapSet t.indexes key idx }

/-- `Microtable.deleteIndex`: removes the index and, when the key set
carries a uniqueness constraint, the constraint as well. -/
def deleteIndex (t : Table) (fields : List String) : Table :=
  let key := fieldKey t fields
  let u :=
    if key ∈ t.uniquenessIndexNames then
      t.uniquenessIndexNames.filter (fun nm => decide (nm ≠ key))
    else t.uniquenessIndexNames
  { t with uniquenessIndexNames := u, indexes := mapErase t.indexes key }

/-- `JSON.stringify` of a record object: properties whose value is
`undefined` are dropped. -/
def jsonOfRow (r : ORow) : ORow :=
  r.filter (fun p => p.2.isSome)

/-- `Microtable.satisfiesUniquenessConstraint`: the serialized projected
records are pairwise distinct. -/
def satisfiesUniquenessConstraint (t : Table) (fields : List String) :
    Except MErr Bool :=
  match select t fields with
  | .error e => .error e
  | .ok sel => .ok (decide (sel.recs.map jsonOfRow).Nodup)

/-- The message of the `Error` thrown by `Microtable.uniquenessConstraint`. -/
def constraintMsg (fields : List String) : String :=
  "Uniqueness constraint violated for columns " ++ joinComma fields

/-- `Microtable.uniquenessConstraint`: check, register the canonical key,
build the backing index. -/
def uniquenessConstraint (t : Table) (fields : List String) :
    Except MErr Table :=
  match satisfiesUniquenessConstraint t fields with
  | .error e => .error e
  | .ok b =>
    if b then
      let key := fieldKey t fields
      createIndex
        { t with uniquenessIndexNames := t.uniquenessIndexNames ++ [key] }
        fields
    else .error (.err (constraintMsg fields))

/-- One match test of `Microtable.where`'s scan loop: fields are compared
in order, stopping at the first mismatch; dereferencing an unknown field's
column is a `TypeError`. -/
def matchRow (t : Table) (m : ORow) (i : Nat) :
    List String → Except MErr Bool
  | [] => .ok true
  | f :: fs =>
    match mapGet t.data f with
    | none => .error .typeErr
    | some c =>
      if jsGet c i = rowGet m f then matchRow t m i fs else .ok false

/-- The offset-collecting scan loop of `Microtable.where`. -/
def scanRows (t : Table) (m : ORow) (mfs : List String) :
    List Nat → Except MErr (List Nat)
  | [] => .ok []
  | i :: is =>
    match matchRow t m i mfs with
    | .error e => .error e
    | .ok b =>
      match scanRows t m mfs is with
      | .error e => .error e
      | .ok ps => .ok (if b then i :: ps else ps)

/-- The column-slicing loop of `Microtable.filterByRowIndex`. -/
def sliceCols (t : Table) (ps : List Nat) :
    List String → Except MErr (Obj Col)
  | [] => .ok []
  | f :: fs =>
    match mapGet t.data f with
    | none => .error .typeErr
    | some c =>
      match sliceCols t ps fs with
      | .error e => .error e
      | .ok rest => .ok ((f, ps.map (fun i => jsGet c i)) :: rest)

/-- `Microtable.filterByRowIndex`: a new table over the rows at the given
offsets, built column-major. -/
def filterByRowIndex (t : Table) (ps : List Nat) : Except MErr Table :=
  match sliceCols t ps t.fields with
  | .error e => .error e
  | .ok data => createCols data

/-- `Microtable.where`: if an index exists under the canonical key of the
matched fields, look up the tuple of match values (in the match spec's own
enumeration order) and materialize those records row-major; otherwise scan
and build the result with `filterByRowIndex`. -/
def whereFn (t : Table) (m : ORow) : Except MErr Table :=
  let matchFields := m.map (fun p => p.1)
  let key := fieldKey t matchFields
  match mapGet t.indexes key with
  | some idx =>
    let ikey := matchFields.map (fun k => rowGet m k)
    let recs := ((mapGet idx ikey).getD []).map (fun i => t.record i)
    create recs t.fields
  | none =>
    match t.data with
    | [] => .error .typeErr
    | (_, c0) :: _ =>
      match scanRows t m matchFields (List.range c0.length) with
      | .error e => .error e
      | .ok ps => filterByRowIndex t ps

/-- `for (const fields of this.fields) this.data[fields].splice(rowToDelete, 1)`:
splice every column at offset `i`; a column absent from `data` is a
`TypeError`. -/
def evictCols (i : Nat) : Obj Col → List String → Except MErr (Obj Col)
  | d, [] => .ok d
  | d, f :: fs =>
    match mapGet d f with
    | none => .error .typeErr
    | some c => evictCols i (mapSet d f (spliceAt c i)) fs

/-- The eviction inner loop of `Microtable.insert`: each offset in the
bucket decrements `length` and splices every column at that (uncorrected)
offset. -/
def evictRows (fields : List String) :
    Table → List Nat → Except MErr Table
  | t, [] => .ok t
  | t, i :: is =>
    match evictCols i t.data fields with
    | .error e => .error e
    | .ok d => evictRows fields { t with length := t.length - 1, data := d } is

/-- The uniqueness phase of `Microtable.insert`: for each registered
constrained key (in registration order), if its index has a bucket for the
new row's tuple, delete those offsets from the store. Reading a missing
index is a `TypeError`. -/
def evictPhase (record : ORow) :
    Table → List String → Except MErr Table
  | t, [] => .ok t
  | t, nm :: nms =>
    match mapGet t.indexes nm with
    | none => .error .typeErr
    | some idx =>
      let fs := splitComma nm
      let ikey := fs.map (fun f => rowGet record f)
      match mapGet idx ikey with
      | none => evictPhase record t nms
      | some bucket =>
        match evictRows t.fields t bucket with
        | .error e => .error e
        | .ok t1 => evictPhase record t1 nms

/-- The data-update phase of `Microtable.insert`: each own key of the
record pushes its value onto that column; pushing onto a column absent
from `data` is a `TypeError`. -/
def pushPhase : Table → List (String × OV) → Except MErr Table
  | t, [] => .ok t
  | t, (k, v) :: ps =>
    match mapGet t.data k with
    | none => .error .typeErr
    | some c => pushPhase { t with data := mapSet t.data k (c ++ [v]) } ps

/-- The index-update phase of `Microtable.insert`: every live index gets
the new offset appended to the bucket of the new row's tuple for that
index's (split) key. -/
def updateIndexes (record : ORow) (newIdx : Nat) (idxs : Obj Index) :
    Obj Index :=
  idxs.map (fun p =>
    (p.1, bucketPush p.2 ((splitComma p.1).map (fun f => rowGet record f)) newIdx))

/-- `Microtable.insert`: evict uniqueness conflicts, push the record's own
keys onto the columns, bump `length`, then update every live index with
the new offset. -/
def insert (t : Table) (record : ORow) : Except MErr Table :=
  match evictPhase record t t.uniquenessIndexNames with
  | .error e => .error e
  | .ok t1 =>
    match pushPhase t1 record with
    | .error e => .error e
    | .ok t2 =>
      let t3 := { t2 with length := t2.length + 1 }
      let newRowIndex := t3.length - 1
      .ok { t3 with indexes := updateIndexes record newRowIndex t3.indexes }

/-! ## Well-formed tables

A table is well-formed when its `fields` attribute lists exactly the data
object's keys (in order, without duplicates) and every column has the
table's `length`.  Tables built by the constructor from full rows satisfy
this, and it is what the class invariants of the source presuppose. -/

/-- Well-formedness of a table state. -/
def WF (t : Table) : Prop :=
  t.data.map (fun p => p.1) = t.fields ∧ t.fields.Nodup ∧
    ∀ p ∈ t.data, p.2.length = t.length

instance (t : Table) : Decidable (WF t) := by
  unfold WF; infer_instance

/-! ## Association-list lemmas -/

theorem mapGet_nil {β : Type} [DecidableEq κ] (k : κ) :
    mapGet ([] : List (κ × β)) k = none := rfl

theorem mapGet_set_self {β : Type} [DecidableEq κ]
    (m : List (κ × β)) (k : κ) (v : β) :
    mapGet (mapSet m k v) k = some v := by
  induction m with
  | nil => simp [mapSet, mapGet]
  | cons p ps ih =>
    by_cases h : p.1 = k
    · simp [mapSet, mapGet, h]
    · simp [mapSet, mapGet, h, ih]

theorem mapGet_set_ne {β : Type} [DecidableEq κ]
    (m : List (κ × β)) (k k' : κ) (v : β) (h : k' ≠ k) :
    mapGet (mapSet m k v) k' = mapGet m k' := by
  induction m with
  | nil => simp [mapSet, mapGet, if_neg (Ne.symm h)]
  | cons p ps ih =>
    by_cases hp : p.1 = k
    · subst hp
      simp only [mapSet, if_pos rfl, mapGet, if_neg (Ne.symm h)]
    · simp only [mapSet, if_neg hp, mapGet, ih]

theorem mapGet_erase_self {β : Type} [DecidableEq κ]
    (m : List (κ × β)) (k : κ) :
    mapGet (mapErase m k) k = none := by
  induction m with
  | nil => rfl
  | cons p ps ih =>
    by_cases h : p.1 = k
    · simp [mapErase, h, ih]
    · simp [mapErase, mapGet, h, ih]

theorem mapGet_erase_ne {β : Type} [DecidableEq κ]
    (m : List (κ × β)) (k k' : κ) (h : k' ≠ k) :
    mapGet (mapErase m k) k' = mapGet m k' := by
  induction m with
  | nil => rfl
  | cons p ps ih =>
    by_cases hp : p.1 = k
    · subst hp
      simp [mapErase, mapGet, ih, if_neg (Ne.symm h)]
    · simp only [mapErase, if_neg hp, mapGet, ih]

theorem mapGet_eq_none_iff {β : Type} [DecidableEq κ]
    (m : List (κ × β)) (k : κ) :
    mapGet m k = none ↔ k ∉ m.map (fun p => p.1) := by
  induction m with
  | nil => simp [mapGet]
  | cons p ps ih =>
    by_cases h : p.1 = k
    · simp [mapGet, h]
    · simp only [mapGet, if_neg h, ih, List.map_cons, List.mem_cons]
      constructor
      · intro hh
        rintro (hk | hk)
        · exact h hk.symm
        · exact hh hk
      · intro hh hk
        exact hh (Or.inr hk)

theorem mapGet_isSome_of_mem_keys {β : Type} [DecidableEq κ]
    (m : List (κ × β)) (k : κ) (h : k ∈ m.map (fun p => p.1)) :
    (mapGet m k).isSome := by
  cases hm : mapGet m k with
  | some v => rfl
  | none => exact absurd ((mapGet_eq_none_iff m k).mp hm) (by simp [h])

theorem mapGet_some_mem {β : Type} [DecidableEq κ]
    (m : List (κ × β)) (k : κ) (v : β) (h : mapGet m k = some v) :
    (k, v) ∈ m := by
  induction m with
  | nil => simp [mapGet] at h
  | cons p ps ih =>
    by_cases hp : p.1 = k
    · rw [mapGet, if_pos hp] at h
      injection h with h2
      have hpe : p = (k, v) := by
        obtain ⟨k0, v0⟩ := p
        simp only at hp h2
        rw [hp, h2]
      rw [hpe]
      exact List.mem_cons_self _ _
    · rw [mapGet, if_neg hp] at h
      exact List.mem_cons_of_mem _ (ih h)

theorem mapGet_of_mem_nodup {β : Type} [DecidableEq κ]
    (m : List (κ × β)) (k : κ) (v : β)
    (hnd : (m.map (fun p => p.1)).Nodup) (h : (k, v) ∈ m) :
    mapGet m k = some v := by
  induction m with
  | nil => simp at h
  | cons p ps ih =>
    simp only [List.map_cons, List.nodup_cons] at hnd
    rcases List.mem_cons.mp h with h1 | h1
    · rw [← h1]
      simp [mapGet]
    · have hk : p.1 ≠ k := by
        intro hh
        exact hnd.1 (hh ▸ (List.mem_map.mpr ⟨(k, v), h1, rfl⟩))
      rw [mapGet, if_neg hk]
      exact ih hnd.2 h1

theorem mapSet_fresh {β : Type} [DecidableEq κ]
    (m : List (κ × β)) (k : κ) (v : β) (h : k ∉ m.map (fun p => p.1)) :
    mapSet m k v = m ++ [(k, v)] := by
  induction m with
  | nil => rfl
  | cons p ps ih =>
    simp only [List.map_cons, List.mem_cons] at h
    push_neg at h
    rw [mapSet, if_neg (fun hh => h.1 hh.symm), ih h.2]
    rfl

theorem mapSet_keys {β : Type} [DecidableEq κ]
    (m : List (κ × β)) (k : κ) (v w : β) :
    (mapSet m k v).map (fun p => p.1) = (mapSet m k w).map (fun p => p.1) := by
  induction m with
  | nil => rfl
  | cons p ps ih =>
    by_cases h : p.1 = k
    · simp [mapSet, h]
    · simp [mapSet, h, ih]

/-- Updating a present key (under duplicate-free keys) rewrites exactly
that entry in place. -/
theorem mapSet_present_map {β : Type} [DecidableEq κ]
    (m : List (κ × β)) (k : κ) (w : β)
    (hnd : (m.map (fun p => p.1)).Nodup) (h : k ∈ m.map (fun p => p.1)) :
    mapSet m k w = m.map (fun p => if p.1 = k then (p.1, w) else p) := by
  induction m with
  | nil => simp at h
  | cons p ps ih =>
    simp only [List.map_cons, List.nodup_cons] at hnd
    by_cases hp : p.1 = k
    · rw [mapSet, if_pos hp, List.map_cons, if_pos hp, hp]
      congr 1
      have : ∀ q ∈ ps, (if q.1 = k then (q.1, w) else q) = q := by
        intro q hq
        rw [if_neg]
        intro hh
        exact hnd.1 (hp ▸ hh ▸ List.mem_map.mpr ⟨q, hq, rfl⟩)
      rw [List.map_congr_left this, List.map_id']
    · have hmem : k ∈ ps.map (fun p => p.1) := by
        rcases List.mem_cons.mp h with h | h
        · exact absurd h.symm hp
        · exact h
      rw [mapSet, if_neg hp, List.map_cons, if_neg hp, ih hnd.2 hmem]

theorem jsGet_nil (i : Nat) : jsGet [] i = none := by
  simp [jsGet]

theorem jsGet_eq_join (c : Col) (i : Nat) :
    jsGet c i = (getElem? c i).join := by
  rw [jsGet, ← List.get?_eq_getElem?]
  cases c.get? i <;> rfl

theorem jsGet_append_lt (c : Col) (d : Col) (i : Nat) (h : i < c.length) :
    jsGet (c ++ d) i = jsGet c i := by
  rw [jsGet_eq_join, jsGet_eq_join, List.getElem?_append_left h]

theorem jsGet_concat_length (c : Col) (v : OV) :
    jsGet (c ++ [v]) c.length = v := by
  rw [jsGet_eq_join, List.getElem?_concat_length]
  rfl

theorem jsGet_map_get? {α : Type} (l : List α) (g : α → OV) (i : Nat) :
    jsGet (l.map g) i = match getElem? l i with
      | some x => g x
      | none => none := by
  rw [jsGet_eq_join, List.getElem?_map]
  cases getElem? l i <;> rfl

/-- `rowGet` agrees with `mapGet` followed by collapsing the two layers of
"undefined". -/
theorem rowGet_eq_mapGet (r : ORow) (k : String) :
    rowGet r k = (mapGet r k).join := by
  induction r with
  | nil => rfl
  | cons p ps ih =>
    by_cases h : p.1 = k
    · unfold rowGet
      rw [List.find?_cons_of_pos _ (by simp [h])]
      simp [mapGet, h]
    · unfold rowGet
      rw [List.find?_cons_of_neg _ (by simp [h])]
      simp only [mapGet, if_neg h]
      exact ih

/-- Reading a key not at the head skips the head. -/
theorem rowGet_cons_ne (p : String × OV) (ps : List (String × OV))
    (k : String) (h : p.1 ≠ k) : rowGet (p :: ps) k = rowGet ps k := by
  unfold rowGet
  rw [List.find?_cons_of_neg _ (by simp [h])]

/-- A record with exactly the keys of a given list (in order, without
duplicates) is recovered by reading each key back. -/
theorem rowEta (r : ORow) (hnd : (r.map (fun p => p.1)).Nodup) :
    (r.map (fun p => p.1)).map (fun k => (k, rowGet r k)) = r := by
  induction r with
  | nil => rfl
  | cons p ps ih =>
    simp only [List.map_cons, List.nodup_cons] at hnd ⊢
    have h1 : rowGet (p :: ps) p.1 = p.2 := by
      unfold rowGet
      rw [List.find?_cons_of_pos _ (by simp)]
    have h2 : ∀ k ∈ ps.map (fun q => q.1), rowGet (p :: ps) k = rowGet ps k := by
      intro k hk
      exact rowGet_cons_ne p ps k (fun hh => hnd.1 (hh ▸ hk))
    rw [h1]
    congr 1
    rw [List.map_congr_left (fun k hk => by rw [h2 k hk])]
    exact ih hnd.2

theorem mapGet_append_of_not_mem {β : Type} [DecidableEq κ]
    (pre rest : List (κ × β)) (k : κ) (h : k ∉ pre.map (fun p => p.1)) :
    mapGet (pre ++ rest) k = mapGet rest k := by
  induction pre with
  | nil => rfl
  | cons p ps ih =>
    simp only [List.map_cons, List.mem_cons] at h
    push_neg at h
    rw [List.cons_append, mapGet, if_neg (fun hh => h.1 hh.symm)]
    exact ih h.2

theorem mapSet_append_of_not_mem {β : Type} [DecidableEq κ]
    (pre rest : List (κ × β)) (k : κ) (v : β)
    (h : k ∉ pre.map (fun p => p.1)) :
    mapSet (pre ++ rest) k v = pre ++ mapSet rest k v := by
  induction pre with
  | nil => rfl
  | cons p ps ih =>
    simp only [List.map_cons, List.mem_cons] at h
    push_neg at h
    rw [List.cons_append, mapSet, if_neg (fun hh => h.1 hh.symm), ih h.2]
    rfl

/-! ## Characterization of the row-major constructor -/

theorem foldInit_eq :
    ∀ (keys : List String) (acc : Obj Col), keys.Nodup →
      (∀ k ∈ keys, k ∉ acc.map (fun p => p.1)) →
      keys.foldl (fun d k => mapSet d k []) acc
        = acc ++ keys.map (fun k => (k, ([] : Col))) := by
  intro keys
  induction keys with
  | nil => intro acc _ _; simp
  | cons k ks ih =>
    intro acc hnd hfresh
    simp only [List.nodup_cons] at hnd
    rw [List.foldl_cons, mapSet_fresh acc k [] (hfresh k (List.mem_cons_self _ _))]
    rw [ih (acc ++ [(k, [])]) hnd.2 ?_]
    · simp
    · intro k' hk'
      simp only [List.map_append, List.mem_append, List.map_cons, List.map_nil]
      push_neg
      refine ⟨hfresh k' (List.mem_cons_of_mem _ hk'), ?_⟩
      simp only [List.mem_singleton]
      intro hh
      exact hnd.1 (hh ▸ hk')

theorem foldPush_eq (r : ORow) :
    ∀ (ks : List String) (pre : Obj Col) (f : String → Col), ks.Nodup →
      (∀ k ∈ ks, k ∉ pre.map (fun p => p.1)) →
      ks.foldl (fun d k => mapSet d k (((mapGet d k).getD []) ++ [rowGet r k]))
          (pre ++ ks.map (fun k => (k, f k)))
        = pre ++ ks.map (fun k => (k, f k ++ [rowGet r k])) := by
  intro ks
  induction ks with
  | nil => intro pre f _ _; simp
  | cons k ks ih =>
    intro pre f hnd hfresh
    simp only [List.nodup_cons] at hnd
    have hk0 : k ∉ pre.map (fun p => p.1) := hfresh k (List.mem_cons_self _ _)
    rw [List.map_cons, List.foldl_cons,
        mapGet_append_of_not_mem pre _ k hk0,
        mapSet_append_of_not_mem pre _ k _ hk0]
    rw [mapGet, if_pos rfl, mapSet, if_pos rfl]
    simp only [Option.getD_some]
    have hmid : pre ++ (k, f k ++ [rowGet r k]) :: ks.map (fun k => (k, f k))
        = (pre ++ [(k, f k ++ [rowGet r k])]) ++ ks.map (fun k => (k, f k)) := by
      simp
    rw [hmid, ih (pre ++ [(k, f k ++ [rowGet r k])]) f hnd.2 ?_]
    · simp
    · intro k' hk'
      simp only [List.map_append, List.mem_append, List.map_cons, List.map_nil]
      push_neg
      refine ⟨hfresh k' (List.mem_cons_of_mem _ hk'), ?_⟩
      simp only [List.mem_singleton]
      intro hh
      exact hnd.1 (hh ▸ hk')

theorem createData_eq (keys : List String) (hnd : keys.Nodup) :
    ∀ (rows : List ORow) (f : String → Col),
      rows.foldl
          (fun d r => keys.foldl
            (fun d k => mapSet d k (((mapGet d k).getD []) ++ [rowGet r k])) d)
          (keys.map (fun k => (k, f k)))
        = keys.map (fun k => (k, f k ++ rows.map (fun r => rowGet r k))) := by
  intro rows
  induction rows with
  | nil =>
    intro f
    simp
  | cons r rows ih =>
    intro f
    rw [List.foldl_cons]
    have h1 := foldPush_eq r keys [] f hnd (by simp)
    simp only [List.nil_append] at h1
    rw [h1, ih (fun k => f k ++ [rowGet r k])]
    apply List.map_congr_left
    intro k _
    simp

theorem createAux_eq (keys : List String) (rows : List ORow)
    (hnd : keys.Nodup) :
    createAux keys rows =
      { fields := keys,
        data := keys.map (fun k => (k, rows.map (fun r => rowGet r k))),
        indexes := [], uniquenessIndexNames := [], length := rows.length } := by
  simp only [createAux]
  have h0 := foldInit_eq keys [] hnd (by simp)
  simp only [List.nil_append] at h0
  rw [h0, createData_eq keys hnd rows (fun _ => [])]
  simp

theorem WF_createAux (keys : List String) (rows : List ORow)
    (hnd : keys.Nodup) : WF (createAux keys rows) := by
  rw [createAux_eq keys rows hnd]
  refine ⟨?_, hnd, ?_⟩
  · rw [List.map_map]
    rw [show ((fun p => p.1) ∘ fun k : String => (k, List.map (fun r => rowGet r k) rows)) = fun k => k from rfl]
    exact List.map_id keys
  · intro p hp
    simp only [List.mem_map] at hp
    obtain ⟨k, -, hk⟩ := hp
    rw [← hk]
    simp

theorem record_createAux (keys : List String) (rows : List ORow)
    (hnd : keys.Nodup) (i : Nat) :
    (createAux keys rows).record i
      = keys.map (fun k => (k, jsGet (rows.map (fun r => rowGet r k)) i)) := by
  rw [createAux_eq keys rows hnd]
  unfold Table.record
  simp [List.map_map, Function.comp]

theorem record_createAux_lt (keys : List String) (rows : List ORow)
    (hnd : keys.Nodup) (i : Nat) (r : ORow)
    (hi : getElem? rows i = some r)
    (hr : r.map (fun p => p.1) = keys) :
    (createAux keys rows).record i = r := by
  rw [record_createAux keys rows hnd i]
  have : ∀ k ∈ keys, jsGet (rows.map (fun r' => rowGet r' k)) i = rowGet r k := by
    intro k _
    rw [jsGet_map_get?, hi]
  rw [List.map_congr_left (fun k hk => by rw [this k hk])]
  rw [← hr]
  exact rowEta r (hr ▸ hnd)

theorem length_createAux (keys : List String) (rows : List ORow) :
    (createAux keys rows).length = rows.length := rfl

theorem recs_createAux (keys : List String) (rows : List ORow)
    (hnd : keys.Nodup) (hr : ∀ r ∈ rows, r.map (fun p => p.1) = keys) :
    (createAux keys rows).recs = rows := by
  unfold Table.recs
  rw [length_createAux]
  apply List.ext_getElem?
  intro n
  rw [List.getElem?_map]
  by_cases hn : n < rows.length
  · rw [List.getElem?_range hn]
    have hr' : getElem? rows n = some (rows.get ⟨n, hn⟩) := List.getElem?_eq_getElem hn
    rw [hr', Option.map_some']
    congr 1
    exact record_createAux_lt keys rows hnd n _ hr'
      (hr _ (List.getElem_mem hn))
  · rw [List.getElem?_eq_none (by simpa using hn),
        List.getElem?_eq_none (by simpa using hn)]
    rfl

/-- The column stored under a field name (empty when the field is
absent; callers pair this with a presence fact). -/
def colAt (t : Table) (f : String) : Col := (mapGet t.data f).getD []

/-- The field values of row `i` for a field list, as `createIndex`
serializes them. -/
def tupleAt (t : Table) (fs : List String) (i : Nat) : List OV :=
  fs.map (fun f => jsGet (colAt t f) i)

/-- The projected record of row `i` onto a field list. -/
def projRow (t : Table) (fs : List String) (i : Nat) : ORow :=
  fs.map (fun f => (f, jsGet (colAt t f) i))

/-- All projected records, in store order. -/
def projRows (t : Table) (fs : List String) : List ORow :=
  (List.range t.length).map (fun i => projRow t fs i)

/-- Every value of a well-formed table is a defined (non-`undefined`)
value. -/
def TotalCols (t : Table) : Prop :=
  ∀ p ∈ t.data, ∀ v ∈ p.2, v.isSome

instance (t : Table) : Decidable (TotalCols t) := by
  unfold TotalCols; infer_instance

/-! ## Characterization of `select` -/

theorem selRecordAux_ok :
    ∀ (fs : List String) (t : Table) (i : Nat) (acc : ORow),
      (∀ f ∈ fs, (mapGet t.data f).isSome) → fs.Nodup →
      (∀ f ∈ fs, f ∉ acc.map (fun p => p.1)) →
      selRecordAux t i acc fs = .ok (acc ++ projRow t fs i) := by
  intro fs
  induction fs with
  | nil => intro t i acc _ _ _; simp [selRecordAux, projRow]
  | cons f fs ih =>
    intro t i acc hsome hnd hfresh
    simp only [List.nodup_cons] at hnd
    obtain ⟨c, hc⟩ := Option.isSome_iff_exists.mp
      (hsome f (List.mem_cons_self _ _))
    simp only [selRecordAux, hc]
    rw [mapSet_fresh acc f _ (hfresh f (List.mem_cons_self _ _))]
    rw [ih t i (acc ++ [(f, jsGet c i)])
        (fun g hg => hsome g (List.mem_cons_of_mem _ hg)) hnd.2 ?_]
    · have : colAt t f = c := by rw [colAt, hc]; rfl
      simp [projRow, this]
    · intro g hg
      simp only [List.map_append, List.mem_append, List.map_cons, List.map_nil,
        List.mem_singleton]
      push_neg
      refine ⟨hfresh g (List.mem_cons_of_mem _ hg), ?_⟩
      intro hh
      exact hnd.1 (hh ▸ hg)

theorem selRecordAux_err :
    ∀ (fs : List String) (t : Table) (i : Nat) (acc : ORow),
      (∃ f ∈ fs, mapGet t.data f = none) →
      selRecordAux t i acc fs = .error .typeErr := by
  intro fs
  induction fs with
  | nil => intro t i acc h; simp at h
  | cons f fs ih =>
    intro t i acc h
    cases hc : mapGet t.data f with
    | none => rw [selRecordAux, hc]
    | some c =>
      rw [selRecordAux, hc]
      obtain ⟨g, hg, hnone⟩ := h
      rcases List.mem_cons.mp hg with hgf | hgf
      · rw [hgf] at hnone
        rw [hnone] at hc
        cases hc
      · exact ih t i _ ⟨g, hgf, hnone⟩

theorem selRecords_ok (t : Table) (fs : List String)
    (hsome : ∀ f ∈ fs, (mapGet t.data f).isSome) (hnd : fs.Nodup) :
    ∀ is : List Nat,
      selRecords t fs is = .ok (is.map (fun i => projRow t fs i)) := by
  intro is
  induction is with
  | nil => rfl
  | cons i is ih =>
    rw [selRecords, selRecordAux_ok fs t i [] hsome hnd (by simp), ih]
    simp

theorem mem_fields_isSome (t : Table) (hwf : WF t) (f : String)
    (h : f ∈ t.fields) : (mapGet t.data f).isSome :=
  mapGet_isSome_of_mem_keys t.data f (hwf.1 ▸ h)

theorem not_mem_fields_none (t : Table) (hwf : WF t) (f : String)
    (h : f ∉ t.fields) : mapGet t.data f = none :=
  (mapGet_eq_none_iff t.data f).mpr (by rw [hwf.1]; exact h)

theorem data_head_length (t : Table) (hwf : WF t) (k : String) (c : Col)
    (ps : List (String × Col)) (hd : t.data = (k, c) :: ps) :
    c.length = t.length :=
  hwf.2.2 (k, c) (hd ▸ List.mem_cons_self _ _)

theorem data_of_fields_ne_nil (t : Table) (hwf : WF t)
    (h : t.fields ≠ []) : ∃ k c ps, t.data = (k, c) :: ps := by
  cases hd : t.data with
  | nil =>
    rw [← hwf.1, hd] at h
    simp at h
  | cons p ps =>
    obtain ⟨k, c⟩ := p
    exact ⟨k, c, ps, rfl⟩

theorem projRow_keys (t : Table) (fs : List String) (i : Nat) :
    (projRow t fs i).map (fun p => p.1) = fs := by
  rw [projRow, List.map_map]
  exact List.map_id' fs

theorem select_ok (t : Table) (fs : List String) (hwf : WF t)
    (hne : t.fields ≠ []) (hlen : 0 < t.length) (hnd : fs.Nodup)
    (hfs : ∀ f ∈ fs, f ∈ t.fields) :
    select t fs = .ok (createAux fs (projRows t fs)) := by
  obtain ⟨k0, c0, ps, hd⟩ := data_of_fields_ne_nil t hwf hne
  have hc0 : c0.length = t.length := data_head_length t hwf k0 c0 ps hd
  simp only [select, hd]
  rw [hc0,
      selRecords_ok t fs (fun f hf => mem_fields_isSome t hwf f (hfs f hf)) hnd]
  obtain ⟨n, hn⟩ : ∃ n, t.length = n + 1 :=
    ⟨t.length - 1, (Nat.succ_pred_eq_of_pos hlen).symm⟩
  rw [hn, List.range_succ_eq_map, List.map_cons]
  simp only [create, projRow_keys]
  have : projRow t fs 0 :: List.map (fun i => projRow t fs i)
      (List.map Nat.succ (List.range n)) = projRows t fs := by
    rw [projRows, hn, List.range_succ_eq_map, List.map_cons]
  rw [this]

theorem select_err (t : Table) (fs : List String) (hwf : WF t)
    (hne : t.fields ≠ []) (hlen : 0 < t.length)
    (hfs : ∃ f ∈ fs, f ∉ t.fields) :
    select t fs = .error .typeErr := by
  obtain ⟨k0, c0, ps, hd⟩ := data_of_fields_ne_nil t hwf hne
  have hc0 : c0.length = t.length := data_head_length t hwf k0 c0 ps hd
  simp only [select, hd]
  rw [hc0]
  obtain ⟨n, hn⟩ : ∃ n, t.length = n + 1 :=
    ⟨t.length - 1, (Nat.succ_pred_eq_of_pos hlen).symm⟩
  rw [hn, List.range_succ_eq_map, selRecords]
  obtain ⟨f, hf, hnf⟩ := hfs
  rw [selRecordAux_err fs t 0 [] ⟨f, hf, not_mem_fields_none t hwf f hnf⟩]

/-! ## Characterization of `createIndex` -/

theorem tupleAux_ok (t : Table) (i : Nat) :
    ∀ fs : List String, (∀ f ∈ fs, (mapGet t.data f).isSome) →
      tupleAux t i fs = .ok (tupleAt t fs i) := by
  intro fs
  induction fs with
  | nil => intro _; rfl
  | cons f fs ih =>
    intro hsome
    obtain ⟨c, hc⟩ := Option.isSome_iff_exists.mp
      (hsome f (List.mem_cons_self _ _))
    simp only [tupleAux, hc,
      ih (fun g hg => hsome g (List.mem_cons_of_mem _ hg))]
    have : colAt t f = c := by rw [colAt, hc]; rfl
    simp [tupleAt, this]

/-- The index produced by the `createIndex` loop over the offsets `is`. -/
def foldIndex (t : Table) (fs : List String) (idx : Index)
    (is : List Nat) : Index :=
  is.foldl (fun idx i => bucketPush idx (tupleAt t fs i) i) idx

/-- The index `createIndex` builds over the whole store. -/
def builtIndex (t : Table) (fs : List String) : Index :=
  foldIndex t fs [] (List.range t.length)

theorem buildIndex_ok (t : Table) (fs : List String)
    (hsome : ∀ f ∈ fs, (mapGet t.data f).isSome) :
    ∀ (is : List Nat) (idx : Index),
      buildIndex t fs idx is = .ok (foldIndex t fs idx is) := by
  intro is
  induction is with
  | nil => intro idx; rfl
  | cons i is ih =>
    intro idx
    simp only [buildIndex, tupleAux_ok t i fs hsome]
    rw [ih]
    rfl

theorem bucketPush_getD (idx : Index) (k tup : List OV) (i : Nat) :
    (mapGet (bucketPush idx k i) tup).getD []
      = if tup = k then ((mapGet idx tup).getD []) ++ [i]
        else (mapGet idx tup).getD [] := by
  unfold bucketPush
  by_cases h : tup = k
  · subst h
    cases hm : mapGet idx tup with
    | none => simp [hm, mapGet_set_self]
    | some b => simp [hm, mapGet_set_self]
  · cases hm : mapGet idx k with
    | none => simp [h, mapGet_set_ne idx k tup _ h]
    | some b => simp [h, mapGet_set_ne idx k tup _ h]

theorem foldIndex_getD (t : Table) (fs : List String) (tup : List OV) :
    ∀ (is : List Nat) (idx : Index),
      (mapGet (foldIndex t fs idx is) tup).getD []
        = ((mapGet idx tup).getD [])
          ++ is.filter (fun i => decide (tupleAt t fs i = tup)) := by
  intro is
  induction is with
  | nil => intro idx; simp [foldIndex]
  | cons i is ih =>
    intro idx
    rw [foldIndex, List.foldl_cons, ← foldIndex, ih, List.filter_cons]
    by_cases h : tupleAt t fs i = tup
    · rw [bucketPush_getD, if_pos h.symm, decide_eq_true h]
      simp
    · rw [bucketPush_getD, if_neg (fun hh => h hh.symm), decide_eq_false h]
      simp

theorem builtIndex_getD (t : Table) (fs : List String) (tup : List OV) :
    (mapGet (builtIndex t fs) tup).getD []
      = (List.range t.length).filter
          (fun i => decide (tupleAt t fs i = tup)) := by
  rw [builtIndex, foldIndex_getD]
  rfl

theorem createIndex_ok (t : Table) (fs : List String) (hwf : WF t)
    (hne : t.fields ≠ []) (hfs : ∀ f ∈ fs, f ∈ t.fields) :
    createIndex t fs
      = .ok ({ t with
               indexes := mapSet t.indexes (fieldKey t fs) (builtIndex t fs) }) := by
  obtain ⟨k0, c0, ps, hd⟩ := data_of_fields_ne_nil t hwf hne
  have hc0 : c0.length = t.length := data_head_length t hwf k0 c0 ps hd
  simp only [createIndex, hd]
  rw [hc0, buildIndex_ok t fs (fun f hf => mem_fields_isSome t hwf f (hfs f hf))]
  rfl

/-! ## Characterization of the uniqueness check -/

theorem jsGet_isSome_of_total (t : Table) (htot : TotalCols t)
    (f : String) (c : Col) (hc : mapGet t.data f = some c)
    (i : Nat) (hi : i < c.length) : (jsGet c i).isSome := by
  have hmem := mapGet_some_mem t.data f c hc
  have hval : ∀ v ∈ c, v.isSome := htot (f, c) hmem
  rw [jsGet_eq_join, List.getElem?_eq_getElem hi]
  exact hval _ (List.getElem_mem hi)

theorem jsonOfRow_projRow (t : Table) (hwf : WF t) (htot : TotalCols t)
    (fs : List String) (hfs : ∀ f ∈ fs, f ∈ t.fields)
    (i : Nat) (hi : i < t.length) :
    jsonOfRow (projRow t fs i) = projRow t fs i := by
  rw [jsonOfRow, projRow, List.filter_eq_self]
  intro p hp
  obtain ⟨f, hf, hfp⟩ := List.mem_map.mp hp
  obtain ⟨c, hc⟩ := Option.isSome_iff_exists.mp
    (mem_fields_isSome t hwf f (hfs f hf))
  have hcl : c.length = t.length := hwf.2.2 (f, c) (mapGet_some_mem _ _ _ hc)
  have : colAt t f = c := by rw [colAt, hc]; rfl
  rw [← hfp]
  simp only
  rw [this]
  exact jsGet_isSome_of_total t htot f c hc i (hcl ▸ hi)

theorem satisfies_ok (t : Table) (fs : List String) (hwf : WF t)
    (hne : t.fields ≠ []) (hlen : 0 < t.length) (htot : TotalCols t)
    (hnd : fs.Nodup) (hfs : ∀ f ∈ fs, f ∈ t.fields) :
    satisfiesUniquenessConstraint t fs
      = .ok (decide (projRows t fs).Nodup) := by
  simp only [satisfiesUniquenessConstraint,
      select_ok t fs hwf hne hlen hnd hfs]
  have hrecs : (createAux fs (projRows t fs)).recs = projRows t fs :=
    recs_createAux fs (projRows t fs) hnd
      (by
        intro r hr
        obtain ⟨i, -, hi⟩ := List.mem_map.mp hr
        rw [← hi]
        exact projRow_keys t fs i)
  rw [hrecs]
  have hjson : (projRows t fs).map jsonOfRow = projRows t fs := by
    rw [projRows, List.map_map]
    apply List.map_congr_left
    intro i hi
    simp only [Function.comp]
    exact jsonOfRow_projRow t hwf htot fs hfs i (List.mem_range.mp hi)
  rw [hjson]

theorem mapGet_map_val {β γ : Type} (g : String → β → γ) :
    ∀ (l : List (String × β)) (k : String),
      mapGet (l.map (fun p => (p.1, g p.1 p.2))) k = (mapGet l k).map (g k) := by
  intro l k
  induction l with
  | nil => rfl
  | cons p ps ih =>
    by_cases h : p.1 = k
    · subst h
      simp [mapGet]
    · simp only [List.map_cons, mapGet, if_neg h, ih]

theorem rowGet_record (t : Table) (hwf : WF t) (f : String)
    (hf : f ∈ t.fields) (i : Nat) :
    rowGet (t.record i) f = jsGet (colAt t f) i := by
  rw [rowGet_eq_mapGet, Table.record,
      mapGet_map_val (fun _ c => jsGet c i) t.data f]
  obtain ⟨c, hc⟩ := Option.isSome_iff_exists.mp (mem_fields_isSome t hwf f hf)
  rw [hc]
  have : colAt t f = c := by rw [colAt, hc]; rfl
  rw [this]
  rfl

theorem projRows_eq_recs_map (t : Table) (hwf : WF t) (fs : List String)
    (hfs : ∀ f ∈ fs, f ∈ t.fields) :
    projRows t fs = t.recs.map (fun r => fs.map (fun f => (f, rowGet r f))) := by
  rw [Table.recs, projRows, List.map_map]
  apply List.map_congr_left
  intro i _
  simp only [Function.comp, projRow]
  apply List.map_congr_left
  intro f hf
  rw [rowGet_record t hwf f (hfs f hf) i]

/-! ## Characterization of the `insert` phases -/

theorem map_fst_of_preserve {β : Type} (l : List (String × β))
    (f : String × β → String × β) (h : ∀ p, (f p).1 = p.1) :
    (l.map f).map (fun p => p.1) = l.map (fun p => p.1) := by
  rw [List.map_map]
  apply List.map_congr_left
  intro p _
  exact h p

theorem entry_val_of_mapGet {β : Type} (l : List (String × β))
    (hnd : (l.map (fun p => p.1)).Nodup) (k : String) (c : β)
    (hc : mapGet l k = some c) :
    ∀ p ∈ l, p.1 = k → p.2 = c := by
  intro p hp hpk
  have : mapGet l k = some p.2 := by
    apply mapGet_of_mem_nodup l k p.2 hnd
    have : p = (k, p.2) := by
      obtain ⟨a, b⟩ := p
      simp only at hpk ⊢
      rw [hpk]
    exact this ▸ hp
  rw [hc] at this
  exact (Option.some.injEq _ _ ▸ this).symm

theorem pushPhase_eq :
    ∀ (ps : List (String × OV)) (t : Table),
      (ps.map (fun q => q.1)).Nodup →
      (∀ q ∈ ps, q.1 ∈ t.data.map (fun p => p.1)) →
      (t.data.map (fun p => p.1)).Nodup →
      pushPhase t ps = .ok ({ t with
        data := t.data.map (fun p =>
          if p.1 ∈ ps.map (fun q => q.1)
          then (p.1, p.2 ++ [rowGet ps p.1]) else p) }) := by
  intro ps
  induction ps with
  | nil =>
    intro t _ _ _
    have h0 : t.data.map (fun p =>
        if p.1 ∈ (([] : List (String × OV)).map (fun q => q.1))
        then (p.1, p.2 ++ [rowGet [] p.1]) else p) = t.data := by
      simp
    rw [pushPhase, h0]
  | cons q ps ih =>
    intro t hnd hmem hdnd
    obtain ⟨k, v⟩ := q
    simp only [List.map_cons, List.nodup_cons] at hnd
    have hkmem : k ∈ t.data.map (fun p => p.1) :=
      hmem (k, v) (List.mem_cons_self _ _)
    obtain ⟨c, hc⟩ := Option.isSome_iff_exists.mp
      (mapGet_isSome_of_mem_keys t.data k hkmem)
    simp only [pushPhase, hc]
    have hset : mapSet t.data k (c ++ [v])
        = t.data.map (fun p => if p.1 = k then (p.1, p.2 ++ [v]) else p) := by
      rw [mapSet_present_map t.data k (c ++ [v]) hdnd hkmem]
      apply List.map_congr_left
      intro p hp
      by_cases hpk : p.1 = k
      · rw [if_pos hpk, if_pos hpk,
            entry_val_of_mapGet t.data hdnd k c hc p hp hpk]
      · rw [if_neg hpk, if_neg hpk]
    have hkeys1 : (t.data.map (fun p => if p.1 = k then (p.1, p.2 ++ [v]) else p)).map
        (fun p => p.1) = t.data.map (fun p => p.1) :=
      map_fst_of_preserve t.data _ (by
        intro p
        by_cases hpk : p.1 = k
        · rw [if_pos hpk]
        · rw [if_neg hpk])
    rw [hset]
    rw [ih { t with
          data := t.data.map (fun p => if p.1 = k then (p.1, p.2 ++ [v]) else p) }
        hnd.2 (by
          intro q hq
          show q.1 ∈ (t.data.map (fun p => if p.1 = k then (p.1, p.2 ++ [v]) else p)).map
            (fun p => p.1)
          rw [hkeys1]
          exact hmem q (List.mem_cons_of_mem _ hq)) (by
          show ((t.data.map (fun p => if p.1 = k then (p.1, p.2 ++ [v]) else p)).map
            (fun p => p.1)).Nodup
          rw [hkeys1]
          exact hdnd)]
    have hdata : (t.data.map (fun p => if p.1 = k then (p.1, p.2 ++ [v]) else p)).map
        (fun p => if p.1 ∈ ps.map (fun q => q.1)
          then (p.1, p.2 ++ [rowGet ps p.1]) else p)
        = t.data.map (fun p =>
            if p.1 ∈ ((k, v) :: ps).map (fun q => q.1)
            then (p.1, p.2 ++ [rowGet ((k, v) :: ps) p.1]) else p) := by
      simp only [List.map_map]
      apply List.map_congr_left
      intro p _
      simp only [Function.comp]
      by_cases hpk : p.1 = k
      · rw [if_pos hpk]
        have hknotps : k ∉ ps.map (fun q => q.1) := hnd.1
        rw [if_neg (by simpa [hpk] using hknotps), if_pos (by simp [hpk])]
        have : rowGet ((k, v) :: ps) p.1 = v := by
          unfold rowGet
          rw [List.find?_cons_of_pos _ (by simp [hpk])]
        rw [this]
      · rw [if_neg hpk]
        have hrg : rowGet ((k, v) :: ps) p.1 = rowGet ps p.1 :=
          rowGet_cons_ne (k, v) ps p.1 (fun hh => hpk hh.symm)
        by_cases hps : p.1 ∈ ps.map (fun q => q.1)
        · rw [if_pos hps, if_pos (by simp [hps]), hrg]
        · rw [if_neg hps, if_neg (by simp [hpk, hps])]
    rw [hdata]

theorem evictCols_eq :
    ∀ (fs : List String) (d : Obj Col) (i : Nat),
      fs.Nodup → (∀ f ∈ fs, f ∈ d.map (fun p => p.1)) →
      (d.map (fun p => p.1)).Nodup →
      evictCols i d fs = .ok (d.map (fun p =>
        if p.1 ∈ fs then (p.1, p.2.eraseIdx i) else p)) := by
  intro fs
  induction fs with
  | nil =>
    intro d i _ _ _
    have h0 : d.map (fun p =>
        if p.1 ∈ ([] : List String) then (p.1, p.2.eraseIdx i) else p) = d := by
      simp
    rw [evictCols, h0]
  | cons f fs ih =>
    intro d i hnd hmem hdnd
    simp only [List.nodup_cons] at hnd
    have hfmem : f ∈ d.map (fun p => p.1) := hmem f (List.mem_cons_self _ _)
    obtain ⟨c, hc⟩ := Option.isSome_iff_exists.mp
      (mapGet_isSome_of_mem_keys d f hfmem)
    simp only [evictCols, hc]
    have hset : mapSet d f (spliceAt c i)
        = d.map (fun p => if p.1 = f then (p.1, p.2.eraseIdx i) else p) := by
      rw [mapSet_present_map d f (spliceAt c i) hdnd hfmem]
      apply List.map_congr_left
      intro p hp
      by_cases hpf : p.1 = f
      · rw [if_pos hpf, if_pos hpf, spliceAt,
            entry_val_of_mapGet d hdnd f c hc p hp hpf]
      · rw [if_neg hpf, if_neg hpf]
    rw [hset]
    have hkeys1 : (d.map (fun p => if p.1 = f then (p.1, p.2.eraseIdx i) else p)).map
        (fun p => p.1) = d.map (fun p => p.1) :=
      map_fst_of_preserve d _ (by
        intro p
        by_cases hpf : p.1 = f
        · rw [if_pos hpf]
        · rw [if_neg hpf])
    rw [ih _ i hnd.2 (by
      intro g hg
      rw [hkeys1]
      exact hmem g (List.mem_cons_of_mem _ hg)) (by rw [hkeys1]; exact hdnd)]
    have hdata : (d.map (fun p => if p.1 = f then (p.1, p.2.eraseIdx i) else p)).map
        (fun p => if p.1 ∈ fs then (p.1, p.2.eraseIdx i) else p)
        = d.map (fun p => if p.1 ∈ f :: fs then (p.1, p.2.eraseIdx i) else p) := by
      simp only [List.map_map]
      apply List.map_congr_left
      intro p _
      simp only [Function.comp]
      by_cases hpf : p.1 = f
      · rw [if_pos hpf, if_neg (by simpa [hpf] using hnd.1), if_pos (by simp [hpf])]
      · rw [if_neg hpf]
        by_cases hps : p.1 ∈ fs
        · rw [if_pos hps, if_pos (by simp [hps])]
        · rw [if_neg hps, if_neg (by simp [hpf, hps])]
    rw [hdata]

/-! ## Frame lemmas and reachable states -/

theorem evictRows_frame :
    ∀ (bs : List Nat) (fs : List String) (t t1 : Table),
      evictRows fs t bs = .ok t1 →
      t1.indexes = t.indexes ∧
      t1.uniquenessIndexNames = t.uniquenessIndexNames ∧
      t1.fields = t.fields := by
  intro bs
  induction bs with
  | nil =>
    intro fs t t1 h
    rw [evictRows] at h
    injection h with h
    rw [← h]
    exact ⟨rfl, rfl, rfl⟩
  | cons b bs ih =>
    intro fs t t1 h
    rw [evictRows] at h
    cases hc : evictCols b t.data fs with
    | error e => rw [hc] at h; cases h
    | ok d =>
      simp only [hc] at h
      exact ih fs { t with data := d, length := t.length - 1 } t1 h

theorem evictPhase_frame :
    ∀ (nms : List String) (r : ORow) (t t1 : Table),
      evictPhase r t nms = .ok t1 →
      t1.indexes = t.indexes ∧
      t1.uniquenessIndexNames = t.uniquenessIndexNames ∧
      t1.fields = t.fields := by
  intro nms
  induction nms with
  | nil =>
    intro r t t1 h
    rw [evictPhase] at h
    injection h with h
    rw [← h]
    exact ⟨rfl, rfl, rfl⟩
  | cons nm nms ih =>
    intro r t t1 h
    rw [evictPhase] at h
    cases hidx : mapGet t.indexes nm with
    | none => rw [hidx] at h; cases h
    | some idx =>
      simp only [hidx] at h
      cases hb : mapGet idx ((splitComma nm).map (fun f => rowGet r f)) with
      | none =>
        simp only [hb] at h
        exact ih r t t1 h
      | some bucket =>
        simp only [hb] at h
        cases he : evictRows t.fields t bucket with
        | error e => rw [he] at h; cases h
        | ok tmid =>
          simp only [he] at h
          obtain ⟨h1, h2, h3⟩ := evictRows_frame bucket t.fields t tmid he
          obtain ⟨h4, h5, h6⟩ := ih r tmid t1 h
          exact ⟨h4.trans h1, h5.trans h2, h6.trans h3⟩

theorem pushPhase_frame :
    ∀ (ps : List (String × OV)) (t t1 : Table),
      pushPhase t ps = .ok t1 →
      t1.indexes = t.indexes ∧
      t1.uniquenessIndexNames = t.uniquenessIndexNames ∧
      t1.fields = t.fields ∧ t1.length = t.length := by
  intro ps
  induction ps with
  | nil =>
    intro t t1 h
    rw [pushPhase] at h
    injection h with h
    rw [← h]
    exact ⟨rfl, rfl, rfl, rfl⟩
  | cons q ps ih =>
    intro t t1 h
    rw [pushPhase] at h
    cases hc : mapGet t.data q.1 with
    | none => rw [hc] at h; cases h
    | some c =>
      simp only [hc] at h
      exact ih { t with data := mapSet t.data q.1 (c ++ [q.2]) } t1 h

theorem mapGet_updateIndexes (r : ORow) (n : Nat) (idxs : Obj Index)
    (k : String) :
    mapGet (updateIndexes r n idxs) k
      = (mapGet idxs k).map (fun idx =>
          bucketPush idx ((splitComma k).map (fun f => rowGet r f)) n) := by
  rw [updateIndexes]
  exact mapGet_map_val
    (fun k idx => bucketPush idx ((splitComma k).map (fun f => rowGet r f)) n)
    idxs k

theorem insert_frame (t t1 : Table) (r : ORow) (h : insert t r = .ok t1) :
    t1.uniquenessIndexNames = t.uniquenessIndexNames ∧
    ∀ k, (mapGet t1.indexes k).isSome = (mapGet t.indexes k).isSome := by
  rw [insert] at h
  cases he : evictPhase r t t.uniquenessIndexNames with
  | error e => rw [he] at h; cases h
  | ok ta =>
    simp only [he] at h
    cases hp : pushPhase ta r with
    | error e => rw [hp] at h; cases h
    | ok tb =>
      simp only [hp] at h
      injection h with h
      obtain ⟨ha1, ha2, -⟩ := evictPhase_frame t.uniquenessIndexNames r t ta he
      obtain ⟨hb1, hb2, -, -⟩ := pushPhase_frame r ta tb hp
      rw [← h]
      refine ⟨hb2.trans ha2, ?_⟩
      intro k
      show (mapGet (updateIndexes r tb.length tb.indexes) k).isSome = _
      rw [mapGet_updateIndexes, Option.isSome_map', hb1, ha1]

theorem createIndex_shape (t t1 : Table) (fs : List String)
    (h : createIndex t fs = .ok t1) :
    ∃ idx, t1 = { t with
                  indexes := mapSet t.indexes (fieldKey t fs) idx } := by
  rw [createIndex] at h
  cases hd : t.data with
  | nil => rw [hd] at h; cases h
  | cons p ps =>
    simp only [hd] at h
    obtain ⟨k0, c0⟩ := p
    cases hb : buildIndex t fs [] (List.range c0.length) with
    | error e => rw [hb] at h; cases h
    | ok idx =>
      simp only [hb] at h
      injection h with h
      exact ⟨idx, h.symm⟩

theorem uniquenessConstraint_shape (t t1 : Table) (fs : List String)
    (h : uniquenessConstraint t fs = .ok t1) :
    ∃ idx, t1 = { t with
                  uniquenessIndexNames :=
                    t.uniquenessIndexNames ++ [fieldKey t fs],
                  indexes := mapSet t.indexes (fieldKey t fs) idx } := by
  rw [uniquenessConstraint] at h
  cases hs : satisfiesUniquenessConstraint t fs with
  | error e => rw [hs] at h; cases h
  | ok b =>
    simp only [hs] at h
    cases b with
    | false => simp at h
    | true =>
      simp only [if_true] at h
      exact createIndex_shape _ t1 fs h

/-- Reachable table states: any table with no indexes and no registered
constraints (as the constructor produces), closed under the four mutating
operations; a failing operation leaves the table as it was. -/
inductive Reachable : Table → Prop where
  | base (t : Table) (hu : t.uniquenessIndexNames = [])
      (hi : t.indexes = []) : Reachable t
  | step_insert {t t' : Table} (r : ORow) :
      Reachable t → insert t r = .ok t' → Reachable t'
  | step_createIndex {t t' : Table} (fs : List String) :
      Reachable t → createIndex t fs = .ok t' → Reachable t'
  | step_deleteIndex {t : Table} (fs : List String) :
      Reachable t → Reachable (deleteIndex t fs)
  | step_uniqueness {t t' : Table} (fs : List String) :
      Reachable t → uniquenessConstraint t fs = .ok t' → Reachable t'

/-- Every registered uniqueness constraint has a backing index. -/
def ConstraintsBacked (t : Table) : Prop :=
  ∀ nm ∈ t.uniquenessIndexNames, (mapGet t.indexes nm).isSome

theorem reachable_constraintsBacked (t : Table) (h : Reachable t) :
    ConstraintsBacked t := by
  induction h with
  | base t hu hi =>
    intro nm hnm
    rw [hu] at hnm
    cases hnm
  | step_insert r hr hok ih =>
    intro nm hnm
    obtain ⟨h1, h2⟩ := insert_frame _ _ _ hok
    rw [h2 nm]
    exact ih nm (h1 ▸ hnm)
  | step_createIndex fs hr hok ih =>
    intro nm hnm
    obtain ⟨idx, hshape⟩ := createIndex_shape _ _ fs hok
    subst hshape
    rename_i tsrc
    by_cases hk : nm = fieldKey tsrc fs
    · show (mapGet (mapSet tsrc.indexes (fieldKey tsrc fs) idx) nm).isSome
      rw [hk, mapGet_set_self]
      rfl
    · show (mapGet (mapSet tsrc.indexes (fieldKey tsrc fs) idx) nm).isSome
      rw [mapGet_set_ne _ _ _ _ hk]
      exact ih nm hnm
  | step_deleteIndex fs hr ih =>
    rename_i t
    intro nm hnm
    simp only [deleteIndex] at hnm ⊢
    have hkey : nm ∈ t.uniquenessIndexNames ∧ nm ≠ fieldKey t fs := by
      by_cases hmem : fieldKey t fs ∈ t.uniquenessIndexNames
      · rw [if_pos hmem] at hnm
        have hf := List.mem_filter.mp hnm
        exact ⟨hf.1, by simpa using hf.2⟩
      · rw [if_neg hmem] at hnm
        exact ⟨hnm, fun hh => hmem (hh ▸ hnm)⟩
    rw [mapGet_erase_ne t.indexes (fieldKey t fs) nm hkey.2]
    exact ih nm hkey.1
  | step_uniqueness fs hr hok ih =>
    intro nm hnm
    obtain ⟨idx, hshape⟩ := uniquenessConstraint_shape _ _ fs hok
    subst hshape
    rename_i tsrc
    by_cases hk : nm = fieldKey tsrc fs
    · show (mapGet (mapSet tsrc.indexes (fieldKey tsrc fs) idx) nm).isSome
      rw [hk, mapGet_set_self]
      rfl
    · show (mapGet (mapSet tsrc.indexes (fieldKey tsrc fs) idx) nm).isSome
      rw [mapGet_set_ne _ _ _ _ hk]
      apply ih
      have hnm2 : nm ∈ tsrc.uniquenessIndexNames ++ [fieldKey tsrc fs] := hnm
      simp only [List.mem_append, List.mem_singleton] at hnm2
      rcases hnm2 with h2 | h2
      · exact h2
      · exact absurd h2 hk

theorem recs_append_row (t : Table) (hwf : WF t) (r : ORow)
    (hkeys : r.map (fun p => p.1) = t.fields) (tX : Table)
    (hdata : tX.data = t.data.map (fun p => (p.1, p.2 ++ [rowGet r p.1])))
    (hlen : tX.length = t.length + 1) :
    tX.recs = t.recs ++ [r] := by
  unfold Table.recs
  rw [hlen, List.range_succ, List.map_append]
  congr 1
  · apply List.map_congr_left
    intro i hi
    have hi' := List.mem_range.mp hi
    rw [Table.record, Table.record, hdata, List.map_map]
    apply List.map_congr_left
    intro p hp
    simp only [Function.comp]
    rw [jsGet_append_lt p.2 _ i (by rw [hwf.2.2 p hp]; exact hi')]
  · simp only [List.map_cons, List.map_nil]
    congr 1
    rw [Table.record, hdata, List.map_map]
    have h1 : ∀ p ∈ t.data,
        ((fun p : String × Col => (p.1, jsGet (p.2 ++ [rowGet r p.1]) t.length)) p)
          = (p.1, rowGet r p.1) := by
      intro p hp
      simp only
      rw [show t.length = p.2.length from (hwf.2.2 p hp).symm, jsGet_concat_length]
    rw [List.map_congr_left (fun p hp => by
      simpa only [Function.comp] using h1 p hp)]
    have h2 : t.data.map (fun p => (p.1, rowGet r p.1))
        = (t.data.map (fun p => p.1)).map (fun f => (f, rowGet r f)) := by
      rw [List.map_map]
      rfl
    rw [h2, hwf.1, ← hkeys]
    exact rowEta r (by rw [hkeys]; exact hwf.2.1)

theorem insert_append (t : Table) (r : ORow) (hwf : WF t)
    (hu : t.uniquenessIndexNames = [])
    (hkeys : r.map (fun p => p.1) = t.fields) :
    ∃ t', insert t r = .ok t' ∧ t'.length = t.length + 1 ∧
      t'.recs = t.recs ++ [r] := by
  have hrnd : (r.map (fun p => p.1)).Nodup := by
    rw [hkeys]; exact hwf.2.1
  have hdnd : (t.data.map (fun p => p.1)).Nodup := by
    rw [hwf.1]; exact hwf.2.1
  have hmem : ∀ q ∈ r, q.1 ∈ t.data.map (fun p => p.1) := by
    intro q hq
    rw [hwf.1, ← hkeys]
    exact List.mem_map.mpr ⟨q, hq, rfl⟩
  have hpush := pushPhase_eq r t hrnd hmem hdnd
  have hdata : t.data.map (fun p =>
      if p.1 ∈ r.map (fun q => q.1)
      then (p.1, p.2 ++ [rowGet r p.1]) else p)
      = t.data.map (fun p => (p.1, p.2 ++ [rowGet r p.1])) := by
    apply List.map_congr_left
    intro p hp
    rw [if_pos (by
      rw [hkeys, ← hwf.1]
      exact List.mem_map.mpr ⟨p, hp, rfl⟩)]
  rw [hdata] at hpush
  have hins : insert t r = .ok ({ t with
      data := t.data.map (fun p => (p.1, p.2 ++ [rowGet r p.1])),
      length := t.length + 1,
      indexes := updateIndexes r t.length t.indexes }) := by
    rw [insert, hu, evictPhase]
    simp only [hpush]
    simp [Nat.add_sub_cancel, hu]
  exact ⟨_, hins, rfl, recs_append_row t hwf r hkeys _ rfl rfl⟩

/-! ## Characterization of `where` -/

theorem record_eq_fields (t : Table) (hwf : WF t) (i : Nat) :
    t.record i = t.fields.map (fun f => (f, jsGet (colAt t f) i)) := by
  rw [Table.record, ← hwf.1, List.map_map]
  apply List.map_congr_left
  intro p hp
  simp only [Function.comp]
  have hget : mapGet t.data p.1 = some p.2 := by
    apply mapGet_of_mem_nodup t.data p.1 p.2 (by rw [hwf.1]; exact hwf.2.1)
    have : p = (p.1, p.2) := by obtain ⟨a, b⟩ := p; rfl
    exact this ▸ hp
  rw [colAt, hget]
  rfl

theorem record_keys (t : Table) (hwf : WF t) (i : Nat) :
    (t.record i).map (fun p => p.1) = t.fields := by
  rw [Table.record, List.map_map, ← hwf.1]
  apply List.map_congr_left
  intro p _
  rfl

theorem matchRow_ok (t : Table) (m : ORow) (i : Nat) :
    ∀ mfs : List String, (∀ f ∈ mfs, (mapGet t.data f).isSome) →
      matchRow t m i mfs
        = .ok (decide (∀ f ∈ mfs, jsGet (colAt t f) i = rowGet m f)) := by
  intro mfs
  induction mfs with
  | nil => intro _; simp [matchRow]
  | cons f fs ih =>
    intro hsome
    obtain ⟨c, hc⟩ := Option.isSome_iff_exists.mp
      (hsome f (List.mem_cons_self _ _))
    have hca : colAt t f = c := by rw [colAt, hc]; rfl
    by_cases heq : jsGet c i = rowGet m f
    · simp only [matchRow, hc, if_pos heq,
        ih (fun g hg => hsome g (List.mem_cons_of_mem _ hg))]
      have hiff : (∀ g ∈ f :: fs, jsGet (colAt t g) i = rowGet m g)
          ↔ (∀ g ∈ fs, jsGet (colAt t g) i = rowGet m g) := by
        rw [List.forall_mem_cons]
        simp [hca, heq]
      rw [decide_eq_decide.mpr hiff]
    · simp only [matchRow, hc, if_neg heq]
      have hnall : ¬ (∀ g ∈ f :: fs, jsGet (colAt t g) i = rowGet m g) := by
        intro hall
        exact heq (hca ▸ hall f (List.mem_cons_self _ _))
      rw [decide_eq_false hnall]

theorem scanRows_ok (t : Table) (m : ORow) (mfs : List String)
    (hsome : ∀ f ∈ mfs, (mapGet t.data f).isSome) :
    ∀ is : List Nat,
      scanRows t m mfs is = .ok (is.filter (fun i =>
        decide (∀ f ∈ mfs, jsGet (colAt t f) i = rowGet m f))) := by
  intro is
  induction is with
  | nil => rfl
  | cons i is ih =>
    simp only [scanRows, matchRow_ok t m i mfs hsome, ih, List.filter_cons]

theorem sliceCols_ok (t : Table) (ps : List Nat) :
    ∀ fs : List String, (∀ f ∈ fs, (mapGet t.data f).isSome) →
      sliceCols t ps fs
        = .ok (fs.map (fun f => (f, ps.map (fun i => jsGet (colAt t f) i)))) := by
  intro fs
  induction fs with
  | nil => intro _; rfl
  | cons f fs ih =>
    intro hsome
    obtain ⟨c, hc⟩ := Option.isSome_iff_exists.mp
      (hsome f (List.mem_cons_self _ _))
    have hca : colAt t f = c := by rw [colAt, hc]; rfl
    simp only [sliceCols, hc,
      ih (fun g hg => hsome g (List.mem_cons_of_mem _ hg))]
    rw [← hca]
    rfl

theorem recs_ext (t2 : Table) (l : List ORow) (hlen : t2.length = l.length)
    (h : ∀ j, j < l.length → getElem? l j = some (t2.record j)) :
    t2.recs = l := by
  unfold Table.recs
  apply List.ext_getElem?
  intro n
  rw [List.getElem?_map]
  by_cases hn : n < l.length
  · rw [hlen, List.getElem?_range hn, Option.map_some', h n hn]
  · rw [List.getElem?_eq_none (by simp [hlen, Nat.le_of_not_lt hn]),
        List.getElem?_eq_none (by exact Nat.le_of_not_lt hn)]
    rfl

theorem filterByRowIndex_ok (t : Table) (ps : List Nat) (hwf : WF t)
    (hne : t.fields ≠ []) :
    ∃ t2, filterByRowIndex t ps = .ok t2 ∧ t2.fields = t.fields ∧
      t2.length = ps.length ∧
      t2.recs = ps.map (fun i => t.record i) := by
  have hsome : ∀ f ∈ t.fields, (mapGet t.data f).isSome :=
    fun f hf => mem_fields_isSome t hwf f hf
  rw [filterByRowIndex, sliceCols_ok t ps t.fields hsome]
  cases hf : t.fields with
  | nil => exact absurd hf hne
  | cons f0 fs0 =>
    rw [List.map_cons]
    simp only [createCols]
    have hkeys : (((f0, ps.map (fun i => jsGet (colAt t f0) i)) ::
        fs0.map (fun f => (f, ps.map (fun i => jsGet (colAt t f) i)))).map
          (fun p => p.1)) = f0 :: fs0 := by
      simp only [List.map_cons, List.map_map]
      congr 1
      rw [show ((fun p => p.1) ∘ fun f =>
          (f, List.map (fun i => jsGet (colAt t f) i) ps)) = fun f => f from rfl]
      exact List.map_id' fs0
    refine ⟨_, rfl, hkeys, by simp, ?_⟩
    apply recs_ext
    · simp
    · intro j hj
      rw [List.length_map] at hj
      obtain ⟨pj, hpj⟩ : ∃ pj, getElem? ps j = some pj :=
        ⟨ps.get ⟨j, hj⟩, List.getElem?_eq_getElem hj⟩
      rw [List.getElem?_map, hpj, Option.map_some']
      congr 1
      show t.record pj = Table.record _ j
      rw [record_eq_fields t hwf pj, Table.record]
      show _ = ((f0, ps.map (fun i => jsGet (colAt t f0) i)) ::
        fs0.map (fun f => (f, ps.map (fun i => jsGet (colAt t f) i)))).map
          (fun p => (p.1, jsGet p.2 j))
      rw [show ((f0, ps.map (fun i => jsGet (colAt t f0) i)) ::
          fs0.map (fun f => (f, ps.map (fun i => jsGet (colAt t f) i))))
          = t.fields.map (fun f => (f, ps.map (fun i => jsGet (colAt t f) i)))
        from by rw [hf]; rfl]
      rw [List.map_map]
      apply List.map_congr_left
      intro g _
      simp only [Function.comp]
      rw [jsGet_map_get?, hpj]

theorem whereFn_scan (t : Table) (m : ORow) (hwf : WF t)
    (hne : t.fields ≠ [])
    (hnoidx : mapGet t.indexes (fieldKey t (m.map (fun p => p.1))) = none)
    (hfs : ∀ f ∈ m.map (fun p => p.1), f ∈ t.fields) :
    ∃ ts, whereFn t m = .ok ts ∧ ts.fields = t.fields ∧
      ts.recs = ((List.range t.length).filter (fun i =>
        decide (∀ f ∈ m.map (fun p : String × OV => p.1),
          jsGet (colAt t f) i = rowGet m f))).map (fun i => t.record i) := by
  obtain ⟨k0, c0, ps0, hd⟩ := data_of_fields_ne_nil t hwf hne
  have hc0 := data_head_length t hwf k0 c0 ps0 hd
  obtain ⟨ts, hts, hfields, -, hrecs⟩ := filterByRowIndex_ok t
    ((List.range t.length).filter (fun i =>
      decide (∀ f ∈ m.map (fun p : String × OV => p.1),
        jsGet (colAt t f) i = rowGet m f))) hwf hne
  refine ⟨ts, ?_, hfields, hrecs⟩
  simp only [whereFn, hnoidx, hd]
  rw [hc0, scanRows_ok t m (m.map (fun p => p.1))
    (fun f hf => mem_fields_isSome t hwf f (hfs f hf))]
  exact hts

/-! ## `sortFields` is a stable sort: permutation-invariance of keys -/

theorem insertByKey_perm (key : String → Int) (x : String) :
    ∀ l : List String, (insertByKey key x l).Perm (x :: l) := by
  intro l
  induction l with
  | nil => exact List.Perm.refl _
  | cons y ys ih =>
    rw [insertByKey]
    by_cases h : key y ≤ key x
    · rw [if_pos h]
      exact (ih.cons y).trans (List.Perm.swap x y ys)
    · rw [if_neg h]

theorem sortFields_perm (schema : List String) :
    ∀ (fs acc : List String),
      (fs.foldl (fun acc x => insertByKey (jsIndexOf schema) x acc) acc).Perm
        (acc ++ fs) := by
  intro fs
  induction fs with
  | nil => intro acc; simp
  | cons x fs ih =>
    intro acc
    rw [List.foldl_cons]
    refine (ih (insertByKey (jsIndexOf schema) x acc)).trans ?_
    have h1 : (insertByKey (jsIndexOf schema) x acc ++ fs).Perm
        ((x :: acc) ++ fs) :=
      (insertByKey_perm (jsIndexOf schema) x acc).append_right fs
    refine h1.trans ?_
    rw [List.cons_append]
    exact List.perm_middle.symm

theorem mem_insertByKey (key : String → Int) (x a : String)
    (l : List String) :
    a ∈ insertByKey key x l ↔ a = x ∨ a ∈ l := by
  rw [(insertByKey_perm key x l).mem_iff]
  exact List.mem_cons

theorem insertByKey_sorted (key : String → Int) (x : String) :
    ∀ l : List String, l.Pairwise (fun a b => key a ≤ key b) →
      (insertByKey key x l).Pairwise (fun a b => key a ≤ key b) := by
  intro l
  induction l with
  | nil => intro _; exact List.pairwise_singleton _ _
  | cons y ys ih =>
    intro hp
    rw [List.pairwise_cons] at hp
    rw [insertByKey]
    by_cases h : key y ≤ key x
    · rw [if_pos h]
      rw [List.pairwise_cons]
      constructor
      · intro a ha
        rcases (mem_insertByKey key x a ys).mp ha with ha | ha
        · rw [ha]; exact h
        · exact hp.1 a ha
      · exact ih hp.2
    · rw [if_neg h]
      rw [List.pairwise_cons]
      constructor
      · intro a ha
        rcases List.mem_cons.mp ha with ha | ha
        · rw [ha]
          exact Int.le_of_lt (Int.lt_of_not_ge h)
        · exact le_trans (Int.le_of_lt (Int.lt_of_not_ge h)) (hp.1 a ha)
      · exact List.pairwise_cons.mpr hp

theorem sortFields_sorted (schema : List String) :
    ∀ (fs acc : List String),
      acc.Pairwise (fun a b => jsIndexOf schema a ≤ jsIndexOf schema b) →
      (fs.foldl (fun acc x => insertByKey (jsIndexOf schema) x acc)
        acc).Pairwise (fun a b => jsIndexOf schema a ≤ jsIndexOf schema b) := by
  intro fs
  induction fs with
  | nil => intro acc h; exact h
  | cons x fs ih =>
    intro acc h
    rw [List.foldl_cons]
    exact ih _ (insertByKey_sorted (jsIndexOf schema) x acc h)

theorem findIdx_decide_getElem (l : List String) (x : String) (i : Nat)
    (h : l.findIdx? (fun y => decide (y = x)) = some i) :
    getElem? l i = some x := by
  obtain ⟨hlt, hp, -⟩ := List.findIdx?_eq_some_iff_getElem.mp h
  rw [List.getElem?_eq_getElem hlt]
  rw [of_decide_eq_true hp]

theorem findIdx_decide_isSome (l : List String) (x : String)
    (h : x ∈ l) : (l.findIdx? (fun y => decide (y = x))).isSome := by
  rw [List.findIdx?_isSome, List.any_eq_true]
  exact ⟨x, h, by simp⟩

theorem jsIndexOf_inj (schema : List String) (x y : String)
    (hx : x ∈ schema) (hy : y ∈ schema)
    (h : jsIndexOf schema x = jsIndexOf schema y) : x = y := by
  obtain ⟨i, hi⟩ := Option.isSome_iff_exists.mp (findIdx_decide_isSome schema x hx)
  obtain ⟨j, hj⟩ := Option.isSome_iff_exists.mp (findIdx_decide_isSome schema y hy)
  simp only [jsIndexOf, hi, hj] at h
  have hij : i = j := by exact_mod_cast h
  have h1 := findIdx_decide_getElem schema x i hi
  have h2 := findIdx_decide_getElem schema y j hj
  rw [hij, h2] at h1
  injection h1 with h1
  exact h1.symm

/-- Canonicalization: two duplicate-free permutations of the same field
set, all in the schema, sort to the same list. -/
theorem sortFields_perm_eq (schema : List String) (fs1 fs2 : List String)
    (hperm : fs1.Perm fs2) (hnd : fs1.Nodup)
    (hmem : ∀ f ∈ fs1, f ∈ schema) :
    sortFields schema fs1 = sortFields schema fs2 := by
  have hp1 := sortFields_perm schema fs1 []
  have hp2 := sortFields_perm schema fs2 []
  simp only [List.nil_append] at hp1 hp2
  have hps : (sortFields schema fs1).Perm (sortFields schema fs2) :=
    (hp1.trans hperm).trans hp2.symm
  have hs1 : (sortFields schema fs1).Pairwise
      (fun a b => jsIndexOf schema a ≤ jsIndexOf schema b) :=
    sortFields_sorted schema fs1 [] List.Pairwise.nil
  have hs2 : (sortFields schema fs2).Pairwise
      (fun a b => jsIndexOf schema a ≤ jsIndexOf schema b) :=
    sortFields_sorted schema fs2 [] List.Pairwise.nil
  have hnd1 : (sortFields schema fs1).Nodup := hp1.nodup_iff.mpr hnd
  have hnd2 : (sortFields schema fs2).Nodup :=
    hps.nodup_iff.mp hnd1
  have hmem1 : ∀ f ∈ sortFields schema fs1, f ∈ schema :=
    fun f hf => hmem f (hp1.mem_iff.mp hf)
  have hmem2 : ∀ f ∈ sortFields schema fs2, f ∈ schema :=
    fun f hf => hmem1 f (hps.mem_iff.mpr hf)
  have hstrict : ∀ (l : List String), l.Nodup → (∀ f ∈ l, f ∈ schema) →
      l.Pairwise (fun a b => jsIndexOf schema a ≤ jsIndexOf schema b) →
      l.Pairwise (fun a b => jsIndexOf schema a < jsIndexOf schema b) := by
    intro l hlnd hlmem hle
    refine (hle.and hlnd).imp_of_mem ?_
    intro a b ha hb hab
    refine lt_of_le_of_ne hab.1 ?_
    intro he
    exact hab.2 (jsIndexOf_inj schema a b (hlmem a ha) (hlmem b hb) he)
  have hsort1 := hstrict _ hnd1 hmem1 hs1
  have hsort2 := hstrict _ hnd2 hmem2 hs2
  haveI : IsAntisymm String
      (fun a b => jsIndexOf schema a < jsIndexOf schema b) :=
    ⟨fun a b h1 h2 => absurd (lt_trans h1 h2) (lt_irrefl _)⟩
  exact List.eq_of_perm_of_sorted hps hsort1 hsort2

theorem fieldKey_perm_eq (t : Table) (fs1 fs2 : List String)
    (hperm : fs1.Perm fs2) (hnd : fs1.Nodup)
    (hmem : ∀ f ∈ fs1, f ∈ t.fields) :
    fieldKey t fs1 = fieldKey t fs2 := by
  rw [fieldKey, fieldKey, sortFields_perm_eq t.fields fs1 fs2 hperm hnd hmem]

theorem mapGet_perm {β : Type} (m1 m2 : List (String × β))
    (hperm : m1.Perm m2) (hnd : (m1.map (fun p => p.1)).Nodup) (k : String) :
    mapGet m1 k = mapGet m2 k := by
  cases h1 : mapGet m1 k with
  | some v =>
    exact (mapGet_of_mem_nodup m2 k v
      ((hperm.map (fun p => p.1)).nodup_iff.mp hnd)
      (hperm.mem_iff.mp (mapGet_some_mem m1 k v h1))).symm
  | none =>
    symm
    rw [mapGet_eq_none_iff]
    intro hmem
    exact (mapGet_eq_none_iff m1 k).mp h1
      ((hperm.map (fun p => p.1)).mem_iff.mpr hmem)

theorem rowGet_perm (m1 m2 : ORow) (hperm : m1.Perm m2)
    (hnd : (m1.map (fun p => p.1)).Nodup) (k : String) :
    rowGet m1 k = rowGet m2 k := by
  rw [rowGet_eq_mapGet, rowGet_eq_mapGet, mapGet_perm m1 m2 hperm hnd k]

theorem whereFn_perm_noidx (t : Table) (m1 m2 : ORow) (hwf : WF t)
    (hne : t.fields ≠ []) (hperm : m1.Perm m2)
    (hnd : (m1.map (fun p => p.1)).Nodup)
    (hfs : ∀ f ∈ m1.map (fun p : String × OV => p.1), f ∈ t.fields)
    (hno : mapGet t.indexes (fieldKey t (m1.map (fun p => p.1))) = none) :
    whereFn t m1 = whereFn t m2 := by
  have hkperm : (m1.map (fun p => p.1)).Perm (m2.map (fun p => p.1)) :=
    hperm.map _
  have hkey : fieldKey t (m1.map (fun p => p.1))
      = fieldKey t (m2.map (fun p => p.1)) :=
    fieldKey_perm_eq t _ _ hkperm hnd hfs
  have hno2 : mapGet t.indexes (fieldKey t (m2.map (fun p => p.1))) = none :=
    hkey ▸ hno
  have hfs2 : ∀ f ∈ m2.map (fun p : String × OV => p.1), f ∈ t.fields :=
    fun f hf => hfs f (hkperm.mem_iff.mpr hf)
  obtain ⟨k0, c0, ps0, hd⟩ := data_of_fields_ne_nil t hwf hne
  simp only [whereFn, hno, hno2, hd]
  rw [scanRows_ok t m1 (m1.map (fun p => p.1))
        (fun f hf => mem_fields_isSome t hwf f (hfs f hf)),
      scanRows_ok t m2 (m2.map (fun p => p.1))
        (fun f hf => mem_fields_isSome t hwf f (hfs2 f hf))]
  have hfilter : (List.range c0.length).filter (fun i =>
        decide (∀ f ∈ m1.map (fun p : String × OV => p.1),
          jsGet (colAt t f) i = rowGet m1 f))
      = (List.range c0.length).filter (fun i =>
        decide (∀ f ∈ m2.map (fun p : String × OV => p.1),
          jsGet (colAt t f) i = rowGet m2 f)) := by
    apply List.filter_congr
    intro i _
    rw [decide_eq_decide]
    constructor
    · intro hall f hf
      rw [← rowGet_perm m1 m2 hperm hnd f]
      exact hall f (hkperm.mem_iff.mpr hf)
    · intro hall f hf
      rw [rowGet_perm m1 m2 hperm hnd f]
      exact hall f (hkperm.mem_iff.mp hf)
  rw [hfilter]

theorem createIndex_same_slot (t t1 t2 : Table) (fs1 fs2 : List String)
    (hperm : fs1.Perm fs2) (hnd : fs1.Nodup)
    (hmem : ∀ f ∈ fs1, f ∈ t.fields)
    (h1 : createIndex t fs1 = .ok t1) (h2 : createIndex t fs2 = .ok t2) :
    t1.indexes.map (fun p => p.1) = t2.indexes.map (fun p => p.1) := by
  obtain ⟨idx1, e1⟩ := createIndex_shape t t1 fs1 h1
  obtain ⟨idx2, e2⟩ := createIndex_shape t t2 fs2 h2
  subst e1 e2
  show (mapSet t.indexes (fieldKey t fs1) idx1).map (fun p => p.1)
    = (mapSet t.indexes (fieldKey t fs2) idx2).map (fun p => p.1)
  rw [fieldKey_perm_eq t fs1 fs2 hperm hnd hmem]
  exact mapSet_keys t.indexes (fieldKey t fs2) idx1 idx2

theorem jsGet_eraseIdx (c : Col) (i j : Nat) :
    jsGet (c.eraseIdx i) j = if j < i then jsGet c j else jsGet c (j + 1) := by
  by_cases h : j < i
  · rw [if_pos h, jsGet_eq_join, jsGet_eq_join,
        List.getElem?_eraseIdx_of_lt c i j h]
  · rw [if_neg h, jsGet_eq_join, jsGet_eq_join,
        List.getElem?_eraseIdx_of_ge c i j (Nat.le_of_not_lt h)]

theorem WF_eraseIdx_table (t : Table) (hwf : WF t) (i : Nat)
    (hi : i < t.length) (tE : Table) (hfields : tE.fields = t.fields)
    (hdata : tE.data = t.data.map (fun p => (p.1, p.2.eraseIdx i)))
    (hlen : tE.length = t.length - 1) : WF tE := by
  refine ⟨?_, by rw [hfields]; exact hwf.2.1, ?_⟩
  · rw [hdata, hfields, ← hwf.1]
    exact map_fst_of_preserve t.data _ (fun p => rfl)
  · intro p hp
    rw [hdata] at hp
    obtain ⟨q, hq, hpq⟩ := List.mem_map.mp hp
    rw [← hpq]
    show (q.2.eraseIdx i).length = tE.length
    rw [List.length_eraseIdx, hwf.2.2 q hq, if_pos hi, hlen]

theorem recs_getElem_some (t : Table) (n : Nat) (row : ORow)
    (h : getElem? t.recs n = some row) : n < t.length ∧ row = t.record n := by
  unfold Table.recs at h
  rw [List.getElem?_map] at h
  by_cases hn : n < t.length
  · rw [List.getElem?_range hn] at h
    simp only [Option.map_some'] at h
    exact ⟨hn, (Option.some.inj h).symm⟩
  · rw [List.getElem?_eq_none
      (by simpa [List.length_range] using Nat.le_of_not_lt hn)] at h
    cases h

theorem recs_eraseIdx_table (t : Table) (_hwf : WF t) (i : Nat)
    (hi : i < t.length) (tE : Table)
    (hdata : tE.data = t.data.map (fun p => (p.1, p.2.eraseIdx i)))
    (hlen : tE.length = t.length - 1) :
    tE.recs = t.recs.eraseIdx i := by
  have hrl : t.recs.length = t.length := by
    unfold Table.recs
    rw [List.length_map, List.length_range]
  apply recs_ext
  · rw [hlen, List.length_eraseIdx, hrl, if_pos hi]
  · intro j hj
    have hjlt : j < t.length - 1 := by
      rwa [List.length_eraseIdx, hrl, if_pos hi] at hj
    have hrec : ∀ n, n < t.length → getElem? t.recs n = some (t.record n) := by
      intro n hn
      unfold Table.recs
      rw [List.getElem?_map, List.getElem?_range hn, Option.map_some']
    have hrecE : tE.record j = t.data.map (fun p =>
        (p.1, if j < i then jsGet p.2 j else jsGet p.2 (j + 1))) := by
      rw [Table.record, hdata, List.map_map]
      apply List.map_congr_left
      intro p _
      simp only [Function.comp]
      rw [jsGet_eraseIdx]
    rw [List.getElem?_eraseIdx]
    by_cases hji : j < i
    · rw [if_pos hji, hrec j (by omega)]
      congr 1
      rw [hrecE, Table.record]
      apply List.map_congr_left
      intro p _
      rw [if_pos hji]
    · rw [if_neg hji, hrec (j + 1) (by omega)]
      congr 1
      rw [hrecE, Table.record]
      apply List.map_congr_left
      intro p _
      rw [if_neg hji]

theorem insert_evict_one (t : Table) (r : ORow) (nm : String)
    (idx : Index) (i : Nat)
    (hwf : WF t) (hkeys : r.map (fun p => p.1) = t.fields)
    (hu : t.uniquenessIndexNames = [nm])
    (hidx : mapGet t.indexes nm = some idx)
    (hbucket : mapGet idx ((splitComma nm).map (fun f => rowGet r f))
      = some [i])
    (hi : i < t.length) :
    ∃ t', insert t r = .ok t' ∧ t'.length = t.length ∧
      t'.recs = t.recs.eraseIdx i ++ [r] := by
  have hdnd : (t.data.map (fun p => p.1)).Nodup := by
    rw [hwf.1]; exact hwf.2.1
  have hec := evictCols_eq t.fields t.data i hwf.2.1
    (fun f hf => by rw [hwf.1]; exact hf) hdnd
  have hdataE : (t.data.map (fun p =>
      if p.1 ∈ t.fields then (p.1, p.2.eraseIdx i) else p))
      = t.data.map (fun p => (p.1, p.2.eraseIdx i)) :=
    List.map_congr_left (fun p hp => by
      rw [if_pos (by rw [← hwf.1]; exact List.mem_map.mpr ⟨p, hp, rfl⟩)])
  rw [hdataE] at hec
  have hevR : evictRows t.fields t [i] = .ok ({ t with
      length := t.length - 1,
      data := t.data.map (fun p => (p.1, p.2.eraseIdx i)) }) := by
    rw [evictRows]
    simp only [hec]
    rw [evictRows]
  have hev : evictPhase r t t.uniquenessIndexNames = .ok ({ t with
      length := t.length - 1,
      data := t.data.map (fun p => (p.1, p.2.eraseIdx i)) }) := by
    rw [hu, evictPhase]
    simp only [hidx, hbucket, hevR]
    rw [evictPhase, hu]
  have hrnd : (r.map (fun p => p.1)).Nodup := by
    rw [hkeys]; exact hwf.2.1
  have hkeysE : (t.data.map (fun p => (p.1, p.2.eraseIdx i))).map
      (fun p => p.1) = t.data.map (fun p => p.1) :=
    map_fst_of_preserve t.data _ (fun p => rfl)
  have hpush := pushPhase_eq r ({ t with
      length := t.length - 1,
      data := t.data.map (fun p => (p.1, p.2.eraseIdx i)) }) hrnd
    (fun q hq => by
      show q.1 ∈ (t.data.map (fun p => (p.1, p.2.eraseIdx i))).map
        (fun p => p.1)
      rw [hkeysE, hwf.1, ← hkeys]
      exact List.mem_map.mpr ⟨q, hq, rfl⟩)
    (by show ((t.data.map (fun p => (p.1, p.2.eraseIdx i))).map
          (fun p => p.1)).Nodup
        rw [hkeysE]; exact hdnd)
  have hprojE : ({ t with
      length := t.length - 1,
      data := t.data.map (fun p => (p.1, p.2.eraseIdx i)) } : Table).data
      = t.data.map (fun p => (p.1, p.2.eraseIdx i)) := rfl
  rw [hprojE] at hpush
  have hdataP : (t.data.map (fun p => (p.1, p.2.eraseIdx i))).map
      (fun p => if p.1 ∈ r.map (fun q => q.1)
        then (p.1, p.2 ++ [rowGet r p.1]) else p)
      = (t.data.map (fun p => (p.1, p.2.eraseIdx i))).map
        (fun p => (p.1, p.2 ++ [rowGet r p.1])) :=
    List.map_congr_left (fun p hp => by
      rw [if_pos (by
        have hmemp : p.1 ∈ (t.data.map
            (fun p => (p.1, p.2.eraseIdx i))).map (fun p => p.1) :=
          List.mem_map.mpr ⟨p, hp, rfl⟩
        rwa [hkeysE, hwf.1, ← hkeys] at hmemp)])
  rw [hdataP] at hpush
  have hins : insert t r = .ok ({ t with
      length := t.length - 1 + 1,
      data := (t.data.map (fun p => (p.1, p.2.eraseIdx i))).map
        (fun p => (p.1, p.2 ++ [rowGet r p.1])),
      indexes := updateIndexes r (t.length - 1 + 1 - 1) t.indexes }) := by
    rw [insert]
    simp only [hev, hpush]
  have hwfE : WF ({ t with
      length := t.length - 1,
      data := t.data.map (fun p => (p.1, p.2.eraseIdx i)) }) :=
    WF_eraseIdx_table t hwf i hi _ rfl rfl rfl
  have hrecsE : ({ t with
      length := t.length - 1,
      data := t.data.map (fun p => (p.1, p.2.eraseIdx i)) } : Table).recs
      = t.recs.eraseIdx i :=
    recs_eraseIdx_table t hwf i hi _ rfl rfl
  refine ⟨_, hins, ?_, ?_⟩
  · show t.length - 1 + 1 = t.length
    omega
  · rw [recs_append_row ({ t with
        length := t.length - 1,
        data := t.data.map (fun p => (p.1, p.2.eraseIdx i)) }) hwfE r hkeys
        _ rfl rfl, hrecsE]

/-! ## Concrete instances

The running example of the README and test suite, plus the small tables
used to exercise edge cases. -/

/-- A defined string value. -/
def vstr (s : String) : OV := some (Value.str s)

/-- A defined numeric value. -/
def vnum (n : Int) : OV := some (Value.num n)

/-- One row of the running activity-ratings example. -/
def actRow (p a : String) (r : Int) : ORow :=
  [("person", vstr p), ("activity", vstr a), ("rating", vnum r)]

/-- The seven rows of the running example. -/
def runningRows : List ORow :=
  [actRow "Alice" "hiking" 5, actRow "Alice" "swimming" 3,
   actRow "Bob" "hiking" 2, actRow "Bob" "swimming" 4,
   actRow "Bob" "running" 5, actRow "Charlie" "swimming" 5,
   actRow "Charlie" "running" 1]

/-- The running example table. -/
def runningTable : Table :=
  createAux ["person", "activity", "rating"] runningRows

/-- The table state after registering the uniqueness constraint on
(person, activity) and inserting the conflicting row `Alice/hiking/9`. -/
def staleState : Except MErr Table :=
  (uniquenessConstraint runningTable ["person", "activity"]).bind
    (fun t => insert t (actRow "Alice" "hiking" 9))

/-- A two-column row over fields `a`, `b`. -/
def abRow (x y : Int) : ORow := [("a", vnum x), ("b", vnum y)]

/-- Start state for the multi-offset eviction scenario. -/
def abTable : Table := createAux ["a", "b"] [abRow 1 2]

/-- Builds, through public operations only, a state whose constrained
index has the multi-offset bucket `(1,2) ↦ [0,1]` together with a third
row `(3,4)` at offset 2. -/
def multiBucketState : Except MErr Table :=
  (uniquenessConstraint abTable ["b", "a"]).bind fun t =>
  (insert t (abRow 1 2)).bind fun t =>
  (createIndex t ["a", "b"]).bind fun t =>
  (insert t (abRow 3 4)).bind fun t =>
  createIndex t ["a", "b"]

/-- The multi-offset scenario after inserting `(1,2)` once more. -/
def multiBucketInsert : Except MErr Table :=
  multiBucketState.bind (fun t => insert t (abRow 1 2))

/-- A one-field, zero-row table (`create` with explicit fields accepts an
empty row list). -/
def emptyTableF : Table := createAux ["f"] []

/-- Another one-field, zero-row table. -/
def emptyTableG : Table := createAux ["g"] []

/-- A one-row table over fields `g`, `h`. -/
def ghTable : Table :=
  createAux ["g", "h"] [[("g", vnum 1), ("h", vnum 2)]]

/-- A one-row table over fields `x`, `y`. -/
def xyTable : Table :=
  createAux ["x", "y"] [[("x", vnum 1), ("y", vnum 2)]]

/-- A 1×1 table holding the number 2. -/
def oneCellTable : Table := createAux ["r"] [[("r", vnum 2)]]

/-- The running example after registering the uniqueness constraint on
(person, activity). -/
def constrainedTable : Table :=
  (uniquenessConstraint runningTable ["person", "activity"]).toOption.getD
    runningTable

/-! ## Claim theorems (first batch) -/

/-- C1: the claim that after a completed `insert` every live index maps
each value tuple to exactly the offsets of the matching rows is violated
by the code.  Starting from the running example with the uniqueness
constraint on (person, activity), inserting the conflicting row
`Alice/hiking/9` evicts offset 0 from the store but never updates any
index, so afterwards the constrained index's bucket for the tuple
(Alice, hiking) is `[0, 6]` while the row now at offset 0 is
`Alice/swimming/3` — a live bucket holding the offset of a row whose
values do not match that tuple. -/
theorem C1_insert_leaves_stale_index :
    staleState.map (fun t =>
        ((mapGet t.indexes "person,activity").getD []
          |> (fun idx => mapGet idx [vstr "Alice", vstr "hiking"]),
         t.record 0, t.length))
      = .ok (some [0, 6], actRow "Alice" "swimming" 3, 7) := by
  rfl

/-- C2 counterexample: the claim says eviction deletes exactly the bucket's
rows, with offset shifts corrected so that no wrong row is removed when a
bucket holds multiple offsets.  Through public calls only we reach a state
whose constrained index has the bucket `(1,2) ↦ [0,1]` over the store
`[(1,2), (1,2), (3,4)]`; inserting `(1,2)` then splices offsets 0 and 1 in
ascending order without correction, which removes the rows `(1,2)` and
`(3,4)` — the wrong row — and leaves a duplicate `(1,2)` in the store. -/
theorem C2_counterexample_wrong_row_evicted :
    multiBucketState.map (fun t =>
        (t.recs,
         (mapGet t.indexes "a,b").getD []
           |> (fun idx => mapGet idx [vnum 1, vnum 2])))
      = .ok ([abRow 1 2, abRow 1 2, abRow 3 4], some [0, 1]) ∧
    multiBucketInsert.map (fun t => (t.length, t.recs))
      = .ok (2, [abRow 1 2, abRow 1 2]) := by
  exact ⟨rfl, rfl⟩

/-- C3: the claim (and the spec) says an insert missing a schema field
fails with an InvalidRow error and leaves the table unchanged.  The code
performs no validation at all: inserting `{g: 3}` into a table with schema
`g, h` succeeds, pushes onto column `g` only, and leaves the columns with
unequal lengths (2 vs 1) — the store invariant is silently broken instead
of an error being raised. -/
theorem C3_missing_field_insert_succeeds :
    (insert ghTable [("g", vnum 3)]).map
        (fun t => (mapGet t.data "g", mapGet t.data "h", t.length))
      = .ok (some [vnum 1, vnum 3], some [vnum 2], 2) := by
  rfl

/-- C4 counterexample: `where` does not return the same rows with and
without a matching index.  On a one-row table with schema `x, y` and an
index created as `createIndex("x","y")`, the match spec enumerated in the
order `{y: 2, x: 1}` canonicalizes to the same index key, but the bucket
lookup uses the match enumeration order `[2, 1]` while buckets are keyed
`[1, 2]`, so the indexed path returns no rows where the scan returns the
row. -/
theorem C4_counterexample_index_scan_differ :
    ((createIndex xyTable ["x", "y"]).bind
        (fun t => whereFn t [("y", vnum 2), ("x", vnum 1)])).map Table.recs
      = .ok [] ∧
    (whereFn xyTable [("y", vnum 2), ("x", vnum 1)]).map Table.recs
      = .ok [[("x", vnum 1), ("y", vnum 2)]] := by
  exact ⟨rfl, rfl⟩

/-- C5 counterexample: with a live index on the matched field set,
`where({x: 1, y: 2})` and `where({y: 2, x: 1})` are not identical: both
resolve to the same canonical index key, but the bucket lookup serializes
the match values in enumeration order, so only the order matching the
index's creation order finds the bucket. -/
theorem C5_counterexample_match_order :
    ((createIndex xyTable ["x", "y"]).bind
        (fun t => whereFn t [("x", vnum 1), ("y", vnum 2)])).map Table.recs
      = .ok [[("x", vnum 1), ("y", vnum 2)]] ∧
    ((createIndex xyTable ["x", "y"]).bind
        (fun t => whereFn t [("y", vnum 2), ("x", vnum 1)])).map Table.recs
      = .ok [] := by
  exact ⟨rfl, rfl⟩

/-- C6 counterexample: on a zero-row table all projected tuples are
vacuously pairwise distinct, yet `uniquenessConstraint` does not succeed:
the projection's result table is built from an empty record array with no
explicit field list, and the constructor's read of the first row's keys
throws a TypeError. -/
theorem C6_counterexample_empty_table :
    uniquenessConstraint emptyTableF ["f"] = .error .typeErr ∧
    emptyTableF.recs = [] := by
  exact ⟨rfl, rfl⟩

/-- C8 counterexample: (i) on a zero-row table, `select` of a field that
is in the schema does not return a table but fails with a TypeError, and
(ii) on a one-row table, selecting the duplicate list `["g","g"]` returns
a table whose fields are `["g"]`, not the given list. -/
theorem C8_counterexample :
    select emptyTableG ["g"] = .error .typeErr ∧
    (select ghTable ["g", "g"]).map Table.fields = .ok ["g"] := by
  exact ⟨rfl, rfl⟩

/-- A data object whose key list is a singleton is a singleton. -/
theorem data_singleton :
    ∀ (l : Obj Col) (f : String), l.map (fun p => p.1) = [f] →
      ∃ c, l = [(f, c)] := by
  intro l f h
  cases l with
  | nil => simp at h
  | cons p ps =>
    cases ps with
    | nil =>
      obtain ⟨k, c⟩ := p
      simp only [List.map_cons, List.map_nil, List.cons.injEq, and_true] at h
      exact ⟨c, by rw [h]⟩
    | cons q qs => simp at h

/-- C9: `single()` fails with the shape error whenever the field count or
the row count differs from 1; on a well-formed 1×1 table it returns the
unique stored value; and on the running example,
`where({person:"Bob", activity:"hiking"}).select("rating").single()`
returns 2. -/
theorem C9_single_shape :
    (∀ t : Table, ¬(t.fields.length = 1 ∧ t.length = 1) →
      single t = .error (.err shapeMsg)) ∧
    (∀ (t : Table) (f : String), WF t → t.fields = [f] → t.length = 1 →
      ∃ v : OV, mapGet t.data f = some [v] ∧ single t = .ok v) ∧
    ((whereFn runningTable
          [("person", vstr "Bob"), ("activity", vstr "hiking")]).bind
        (fun t => select t ["rating"])).bind single = .ok (vnum 2) := by
  refine ⟨?_, ?_, rfl⟩
  · intro t h
    unfold single
    rw [if_neg h]
  · intro t f hwf hf hlen
    obtain ⟨hkeys, -, hlens⟩ := hwf
    rw [hf] at hkeys
    obtain ⟨c, hd⟩ := data_singleton t.data f hkeys
    have hc : c.length = 1 := by
      have h1 := hlens (f, c) (by rw [hd]; exact List.mem_cons_self _ _)
      rw [h1, hlen]
    obtain ⟨v, hv⟩ := List.length_eq_one.mp hc
    refine ⟨v, ?_, ?_⟩
    · rw [hd, hv]; simp [mapGet]
    · simp [single, hf, hlen, hd, hv, mapGet, jsGet]

/-- Witness for C9: the shape-error branch at the running example (3
fields), and the 1×1 branch at a concrete one-cell table. -/
theorem C9_single_shape_witness :
    single runningTable = .error (.err shapeMsg) ∧
    ∃ v : OV, mapGet oneCellTable.data "r" = some [v] ∧
      single oneCellTable = .ok v :=
  ⟨C9_single_shape.1 runningTable (by decide),
   C9_single_shape.2.1 oneCellTable "r" (by decide) rfl rfl⟩

/-- C10: on every well-formed table with zero rows, `select` fails with a
TypeError for every field list: the projected record array is empty and
the constructor reads the keys of its (nonexistent) first element. -/
theorem C10_select_empty_table_fails :
    ∀ (t : Table) (fs : List String), WF t → t.length = 0 →
      select t fs = .error .typeErr := by
  intro t fs hwf hlen
  obtain ⟨-, -, hlens⟩ := hwf
  match hd : t.data with
  | [] => simp [select, hd]
  | (k, c) :: ps =>
    have hc : c.length = 0 := by
      have := hlens (k, c) (by rw [hd]; exact List.mem_cons_self _ _)
      rw [this, hlen]
    simp [select, hd, hc, List.range_zero, selRecords, create]

/-- Witness for C10: a concrete one-field, zero-row table. -/
theorem C10_select_empty_table_fails_witness :
    select emptyTableF ["f"] = .error .typeErr :=
  C10_select_empty_table_fails emptyTableF ["f"] (by decide) rfl

/-- C6 (amended): on every non-empty well-formed table with defined cells
and a nonempty schema, `uniquenessConstraint` on known fields fails with
the ConstraintViolation error exactly when the projection onto those
fields has duplicate tuples (the table is then unchanged, since the check
precedes every mutation), and otherwise succeeds, appends the canonical
key to the registered constraints and stores a backing index under that
key, leaving data, fields and row count unchanged. -/
theorem C6_uniqueness_spec :
    ∀ (t : Table) (fs : List String), WF t → TotalCols t →
      t.fields ≠ [] → 0 < t.length → fs.Nodup → (∀ f ∈ fs, f ∈ t.fields) →
      (¬ (projRows t fs).Nodup →
        uniquenessConstraint t fs = .error (.err (constraintMsg fs))) ∧
      ((projRows t fs).Nodup → ∃ t2,
        uniquenessConstraint t fs = .ok t2 ∧
        t2.uniquenessIndexNames
          = t.uniquenessIndexNames ++ [fieldKey t fs] ∧
        (mapGet t2.indexes (fieldKey t fs)).isSome ∧
        t2.data = t.data ∧ t2.fields = t.fields ∧ t2.length = t.length) := by
  intro t fs hwf htot hne hlen hnd hfs
  constructor
  · intro hdup
    simp only [uniquenessConstraint,
      satisfies_ok t fs hwf hne hlen htot hnd hfs]
    rw [decide_eq_false hdup]
    rfl
  · intro hnodup
    refine ⟨{ t with
              uniquenessIndexNames :=
                t.uniquenessIndexNames ++ [fieldKey t fs],
              indexes :=
                mapSet t.indexes (fieldKey t fs) (builtIndex t fs) },
      ?_, rfl, ?_, rfl, rfl, rfl⟩
    · simp only [uniquenessConstraint,
        satisfies_ok t fs hwf hne hlen htot hnd hfs]
      rw [decide_eq_true hnodup]
      simp only [if_true]
      exact createIndex_ok
        ({ t with uniquenessIndexNames :=
            t.uniquenessIndexNames ++ [fieldKey t fs] })
        fs ⟨hwf.1, hwf.2.1, hwf.2.2⟩ hne hfs
    · rw [mapGet_set_self]
      rfl

/-- Witness for C6 (amended): on the running example,
`uniquenessConstraint("person")` hits the duplicate branch (Alice appears
twice) and `uniquenessConstraint("person","activity")` hits the success
branch. -/
theorem C6_uniqueness_spec_witness :
    uniquenessConstraint runningTable ["person"]
      = .error (.err (constraintMsg ["person"])) ∧
    ∃ t2, uniquenessConstraint runningTable ["person", "activity"]
        = .ok t2 ∧
      t2.uniquenessIndexNames
        = runningTable.uniquenessIndexNames
          ++ [fieldKey runningTable ["person", "activity"]] ∧
      (mapGet t2.indexes (fieldKey runningTable ["person", "activity"])).isSome ∧
      t2.data = runningTable.data ∧ t2.fields = runningTable.fields ∧
      t2.length = runningTable.length :=
  ⟨(C6_uniqueness_spec runningTable ["person"] (by decide) (by decide)
      (by decide) (by decide) (by decide) (by decide)).1 (by decide),
   (C6_uniqueness_spec runningTable ["person", "activity"] (by decide)
      (by decide) (by decide) (by decide) (by decide) (by decide)).2
      (by decide)⟩

/-- C8 (amended): on every non-empty well-formed table with a nonempty
schema and every duplicate-free field list, `select` fails (with the
TypeError that is the unknown-field failure mode of the code) when some
requested field is not in the schema, and otherwise returns a new table
with exactly those fields in the given order, the same row count, and the
rows projected in store order. -/
theorem C8_select_spec :
    ∀ (t : Table) (fs : List String), WF t → t.fields ≠ [] →
      0 < t.length → fs.Nodup →
      ((∃ f ∈ fs, f ∉ t.fields) → select t fs = .error .typeErr) ∧
      ((∀ f ∈ fs, f ∈ t.fields) → ∃ t2,
        select t fs = .ok t2 ∧ t2.fields = fs ∧ t2.length = t.length ∧
        t2.recs = t.recs.map (fun r => fs.map (fun f => (f, rowGet r f)))) := by
  intro t fs hwf hne hlen hnd
  constructor
  · intro hbad
    exact select_err t fs hwf hne hlen hbad
  · intro hfs
    refine ⟨createAux fs (projRows t fs),
      select_ok t fs hwf hne hlen hnd hfs, rfl, ?_, ?_⟩
    · rw [length_createAux, projRows, List.length_map, List.length_range]
    · rw [recs_createAux fs (projRows t fs) hnd
        (by
          intro r hr
          obtain ⟨i, -, hi⟩ := List.mem_map.mp hr
          rw [← hi]
          exact projRow_keys t fs i)]
      exact projRows_eq_recs_map t hwf fs hfs

/-- Witness for C8 (amended): on the g/h example table, selecting a list
containing the unknown field `zzz` fails, and selecting `["h"]` returns a
one-field, one-row table with the projected record. -/
theorem C8_select_spec_witness :
    select ghTable ["g", "zzz"] = .error .typeErr ∧
    ∃ t2, select ghTable ["h"] = .ok t2 ∧ t2.fields = ["h"] ∧
      t2.length = ghTable.length ∧
      t2.recs = ghTable.recs.map (fun r => ["h"].map (fun f => (f, rowGet r f))) :=
  ⟨(C8_select_spec ghTable ["g", "zzz"] (by decide) (by decide) (by decide)
      (by decide)).1 ⟨"zzz", by decide, by decide⟩,
   (C8_select_spec ghTable ["h"] (by decide) (by decide) (by decide)
      (by decide)).2 (by decide)⟩

/-- C7: (i) in every reachable table state every uniqueness-constrained
key has a backing index; (ii) `deleteIndex` removes both the index and the
constraint for the canonical key; (iii) on a well-formed table with no
registered constraints, inserting a full row (in particular a duplicate of
an existing row) succeeds without any eviction: the store becomes the old
store plus the new row and the row count grows by one. -/
theorem C7_constraint_index_coupling :
    (∀ t : Table, Reachable t →
      ∀ nm ∈ t.uniquenessIndexNames, (mapGet t.indexes nm).isSome) ∧
    (∀ (t : Table) (fs : List String),
      fieldKey t fs ∉ (deleteIndex t fs).uniquenessIndexNames ∧
      mapGet (deleteIndex t fs).indexes (fieldKey t fs) = none) ∧
    (∀ (t : Table) (r : ORow), WF t → t.uniquenessIndexNames = [] →
      r.map (fun p => p.1) = t.fields →
      ∃ t', insert t r = .ok t' ∧ t'.length = t.length + 1 ∧
        t'.recs = t.recs ++ [r]) := by
  refine ⟨?_, ?_, ?_⟩
  · intro t h
    exact reachable_constraintsBacked t h
  · intro t fs
    constructor
    · simp only [deleteIndex]
      by_cases hmem : fieldKey t fs ∈ t.uniquenessIndexNames
      · rw [if_pos hmem]
        intro hin
        have := (List.mem_filter.mp hin).2
        simp at this
      · rw [if_neg hmem]
        exact hmem
    · simp only [deleteIndex]
      exact mapGet_erase_self t.indexes (fieldKey t fs)
  · intro t r hwf hu hkeys
    exact insert_append t r hwf hu hkeys

/-- Witness for C7: the constrained running example is reachable and its
constraint "person,activity" is backed by an index; deleting that index
removes constraint and index; and inserting a duplicate of Bob's hiking
row into the unconstrained running example appends it without eviction. -/
theorem C7_constraint_index_coupling_witness :
    (mapGet constrainedTable.indexes "person,activity").isSome ∧
    (fieldKey constrainedTable ["person", "activity"]
        ∉ (deleteIndex constrainedTable ["person", "activity"]).uniquenessIndexNames ∧
      mapGet (deleteIndex constrainedTable ["person", "activity"]).indexes
        (fieldKey constrainedTable ["person", "activity"]) = none) ∧
    ∃ t', insert runningTable (actRow "Bob" "hiking" 2) = .ok t' ∧
      t'.length = runningTable.length + 1 ∧
      t'.recs = runningTable.recs ++ [actRow "Bob" "hiking" 2] :=
  ⟨C7_constraint_index_coupling.1 constrainedTable
      (Reachable.step_uniqueness ["person", "activity"]
        (Reachable.base runningTable rfl rfl) (by rfl))
      "person,activity" (by decide),
   C7_constraint_index_coupling.2.1 constrainedTable ["person", "activity"],
   C7_constraint_index_coupling.2.2 runningTable (actRow "Bob" "hiking" 2)
      (by decide) rfl rfl⟩

/-- A table with one index slot replaced (the shape `createIndex`
produces). -/
def withIndex (t : Table) (key : String) (idx : Index) : Table :=
  { t with indexes := mapSet t.indexes key idx }

theorem whereFn_indexed (t : Table) (m : ORow) (idx : Index)
    (hidx : mapGet t.indexes (fieldKey t (m.map (fun p => p.1))) = some idx) :
    whereFn t m = create (((mapGet idx
      ((m.map (fun p => p.1)).map (fun k => rowGet m k))).getD []).map
        (fun i => t.record i)) t.fields := by
  simp only [whereFn, hidx]

/-- When the explicit field list is nonempty the constructor cannot fail. -/
theorem create_of_ne_nil (rows : List ORow) (fields : List String)
    (h : fields ≠ []) : create rows fields = .ok (createAux fields rows) := by
  cases fields with
  | nil => exact absurd rfl h
  | cons f fs => rfl

/-- C4 (amended): on a well-formed table with a nonempty schema,
`where(match)` returns the same rows through the indexed path and through
the scan path, provided the index was created with its fields listed in
the same order as the match spec enumerates them (the source table is
assumed to have no previous index under that key, so its `where` takes the
scan path). -/
theorem C4_index_scan_equiv :
    ∀ (t ti : Table) (m : ORow),
      WF t → t.fields ≠ [] → (m.map (fun p => p.1)).Nodup →
      (∀ f ∈ m.map (fun p : String × OV => p.1), f ∈ t.fields) →
      mapGet t.indexes (fieldKey t (m.map (fun p => p.1))) = none →
      createIndex t (m.map (fun p => p.1)) = .ok ti →
      ∃ tr ts, whereFn ti m = .ok tr ∧ whereFn t m = .ok ts ∧
        tr.recs = ts.recs := by
  intro t ti m hwf hne hnd hfs hno hci
  rw [createIndex_ok t (m.map (fun p => p.1)) hwf hne hfs] at hci
  injection hci with hci
  subst hci
  obtain ⟨ts, hts, -, hrecs⟩ := whereFn_scan t m hwf hne hno hfs
  have hidxI : mapGet (withIndex t (fieldKey t (m.map (fun p => p.1)))
        (builtIndex t (m.map (fun p => p.1)))).indexes
      (fieldKey (withIndex t (fieldKey t (m.map (fun p => p.1)))
        (builtIndex t (m.map (fun p => p.1)))) (m.map (fun p => p.1)))
      = some (builtIndex t (m.map (fun p => p.1))) :=
    mapGet_set_self _ _ _
  have h1 := whereFn_indexed _ m _ hidxI
  have hrecordI : Table.record (withIndex t (fieldKey t (m.map (fun p => p.1)))
      (builtIndex t (m.map (fun p => p.1)))) = Table.record t := rfl
  rw [hrecordI] at h1
  have hfieldsI : (withIndex t (fieldKey t (m.map (fun p => p.1)))
      (builtIndex t (m.map (fun p => p.1)))).fields = t.fields := rfl
  rw [hfieldsI] at h1
  rw [create_of_ne_nil _ _ hne] at h1
  refine ⟨createAux t.fields
    (((mapGet (builtIndex t (m.map (fun p : String × OV => p.1)))
        ((m.map (fun p : String × OV => p.1)).map (fun k => rowGet m k))).getD []).map
      (fun i => t.record i)), ts, h1, hts, ?_⟩
  have hkeysrec : ∀ r ∈ (((mapGet (builtIndex t (m.map (fun p : String × OV => p.1)))
      ((m.map (fun p : String × OV => p.1)).map (fun k => rowGet m k))).getD []).map
        (fun i => t.record i)),
      r.map (fun p => p.1) = t.fields := by
    intro r hr
    obtain ⟨i, -, hi⟩ := List.mem_map.mp hr
    rw [← hi]
    exact record_keys t hwf i
  rw [recs_createAux t.fields _ hwf.2.1 hkeysrec, hrecs, builtIndex_getD]
  congr 1
  apply List.filter_congr
  intro i _
  rw [decide_eq_decide]
  rw [tupleAt, List.map_eq_map_iff]

/-- Witness for C4 (amended): the one-row x/y table, index created as
`("x","y")` and the match spec enumerated in the same order. -/
theorem C4_index_scan_equiv_witness :
    ∃ tr ts,
      whereFn ((createIndex xyTable ["x", "y"]).toOption.getD xyTable)
          [("x", vnum 1), ("y", vnum 2)] = .ok tr ∧
      whereFn xyTable [("x", vnum 1), ("y", vnum 2)] = .ok ts ∧
      tr.recs = ts.recs :=
  C4_index_scan_equiv xyTable
    ((createIndex xyTable ["x", "y"]).toOption.getD xyTable)
    [("x", vnum 1), ("y", vnum 2)]
    (by decide) (by decide) (by decide) (by decide) (by decide) (by rfl)

/-- C5 (amended): field-name sets are canonicalized to schema order before
use as the index storage key: (i) two permuted field lists over schema
fields yield the same `fieldKey`; (ii) `createIndex` called with the two
orders stores the index under the same key, leaving identical index-slot
key lists; (iii) with no live index on the matched set, `where` of two
match specs holding the same field-value pairs in different orders takes
the scan path on both and returns identical results.  (With a live index
the results can differ, per the companion counterexample: the bucket
lookup serializes values in enumeration order.) -/
theorem C5_canonical_key_spec :
    (∀ (t : Table) (fs1 fs2 : List String), fs1.Perm fs2 → fs1.Nodup →
      (∀ f ∈ fs1, f ∈ t.fields) → fieldKey t fs1 = fieldKey t fs2) ∧
    (∀ (t t1 t2 : Table) (fs1 fs2 : List String), fs1.Perm fs2 →
      fs1.Nodup → (∀ f ∈ fs1, f ∈ t.fields) →
      createIndex t fs1 = .ok t1 → createIndex t fs2 = .ok t2 →
      t1.indexes.map (fun p => p.1) = t2.indexes.map (fun p => p.1)) ∧
    (∀ (t : Table) (m1 m2 : ORow), WF t → t.fields ≠ [] → m1.Perm m2 →
      (m1.map (fun p : String × OV => p.1)).Nodup →
      (∀ f ∈ m1.map (fun p : String × OV => p.1), f ∈ t.fields) →
      mapGet t.indexes
        (fieldKey t (m1.map (fun p : String × OV => p.1))) = none →
      whereFn t m1 = whereFn t m2) :=
  ⟨fieldKey_perm_eq,
   fun t t1 t2 fs1 fs2 hperm hnd hmem h1 h2 =>
     createIndex_same_slot t t1 t2 fs1 fs2 hperm hnd hmem h1 h2,
   fun t m1 m2 hwf hne hperm hnd hfs hno =>
     whereFn_perm_noidx t m1 m2 hwf hne hperm hnd hfs hno⟩

/-- Witness for C5 (amended): the one-row x/y table with the field lists
`("x","y")` / `("y","x")` and the match specs enumerated both ways. -/
theorem C5_canonical_key_spec_witness :
    fieldKey xyTable ["x", "y"] = fieldKey xyTable ["y", "x"] ∧
    ((createIndex xyTable ["x", "y"]).toOption.getD xyTable).indexes.map
        (fun p => p.1)
      = ((createIndex xyTable ["y", "x"]).toOption.getD xyTable).indexes.map
        (fun p => p.1) ∧
    whereFn xyTable [("x", vnum 1), ("y", vnum 2)]
      = whereFn xyTable [("y", vnum 2), ("x", vnum 1)] :=
  ⟨C5_canonical_key_spec.1 xyTable ["x", "y"] ["y", "x"]
      (by decide) (by decide) (by decide),
   C5_canonical_key_spec.2.1 xyTable
      ((createIndex xyTable ["x", "y"]).toOption.getD xyTable)
      ((createIndex xyTable ["y", "x"]).toOption.getD xyTable)
      ["x", "y"] ["y", "x"]
      (by decide) (by decide) (by decide) (by rfl) (by rfl),
   C5_canonical_key_spec.2.2 xyTable
      [("x", vnum 1), ("y", vnum 2)] [("y", vnum 2), ("x", vnum 1)]
      (by decide) (by decide) (by decide) (by decide) (by decide) (by rfl)⟩

/-- C2 (amended): in the single-prior-conflicting-row case the claim's
replace semantics does hold.  If the table has one registered uniqueness
constraint whose index maps the new row's constrained tuple to the
one-element bucket `[i]`, and row `i` is the only stored row whose
constrained tuple equals the new row's, then `insert` succeeds, the total
row count is unchanged, the stored rows are the old rows with row `i`
removed followed by the new row, and exactly one row (the new one) remains
for that tuple.  (The multi-offset bucket case is refuted by the companion
counterexample: splicing in ascending bucket order without offset
correction removes the wrong rows.) -/
theorem C2_single_conflict_replace :
    ∀ (t : Table) (r : ORow) (nm : String) (idx : Index) (i : Nat),
      WF t → r.map (fun p => p.1) = t.fields →
      t.uniquenessIndexNames = [nm] →
      mapGet t.indexes nm = some idx →
      mapGet idx ((splitComma nm).map (fun f => rowGet r f)) = some [i] →
      i < t.length →
      (∀ j, j < t.length → j ≠ i →
        (splitComma nm).map (fun f => rowGet (t.record j) f)
          ≠ (splitComma nm).map (fun f => rowGet r f)) →
      ∃ t', insert t r = .ok t' ∧ t'.length = t.length ∧
        t'.recs = t.recs.eraseIdx i ++ [r] ∧
        (t'.recs.filter (fun row =>
          decide ((splitComma nm).map (fun f => rowGet row f)
            = (splitComma nm).map (fun f => rowGet r f)))).length = 1 := by
  intro t r nm idx i hwf hkeys hu hidx hbucket hi huniq
  obtain ⟨t', hins, hlen, hrecs⟩ :=
    insert_evict_one t r nm idx i hwf hkeys hu hidx hbucket hi
  refine ⟨t', hins, hlen, hrecs, ?_⟩
  rw [hrecs, List.filter_append]
  have h1 : (t.recs.eraseIdx i).filter (fun row =>
      decide ((splitComma nm).map (fun f => rowGet row f)
        = (splitComma nm).map (fun f => rowGet r f))) = [] := by
    rw [List.filter_eq_nil_iff]
    intro row hrow
    simp only [decide_eq_true_eq]
    obtain ⟨j, hj⟩ := List.mem_iff_getElem?.mp hrow
    rw [List.getElem?_eraseIdx] at hj
    by_cases hji : j < i
    · rw [if_pos hji] at hj
      obtain ⟨hjlt, hrowj⟩ := recs_getElem_some t j row hj
      rw [hrowj]
      exact huniq j hjlt (Nat.ne_of_lt hji)
    · rw [if_neg hji] at hj
      obtain ⟨hjlt, hrowj⟩ := recs_getElem_some t (j + 1) row hj
      rw [hrowj]
      exact huniq (j + 1) hjlt (by omega)
  have h2 : ([r] : List ORow).filter (fun row =>
      decide ((splitComma nm).map (fun f => rowGet row f)
        = (splitComma nm).map (fun f => rowGet r f))) = [r] := by
    simp
  rw [h1, h2]
  rfl

/-- Witness for C2 (amended): inserting the conflicting `Alice/hiking/9`
row into the running example with the uniqueness constraint on
(person, activity), whose index holds the single-offset bucket
`(Alice, hiking) ↦ [0]`. -/
theorem C2_single_conflict_replace_witness :
    ∃ t', insert constrainedTable (actRow "Alice" "hiking" 9) = .ok t' ∧
      t'.length = constrainedTable.length ∧
      t'.recs = constrainedTable.recs.eraseIdx 0
        ++ [actRow "Alice" "hiking" 9] ∧
      (t'.recs.filter (fun row =>
        decide ((splitComma "person,activity").map (fun f => rowGet row f)
          = (splitComma "person,activity").map
            (fun f => rowGet (actRow "Alice" "hiking" 9) f)))).length = 1 :=
  C2_single_conflict_replace constrainedTable (actRow "Alice" "hiking" 9)
    "person,activity"
    ((mapGet constrainedTable.indexes "person,activity").getD []) 0
    (by decide) (by rfl) (by rfl) (by rfl) (by rfl) (by decide) (by decide)

end Microtable
